import Mathlib

/-!
Shallow embedding of the arithmetic-circuit graph builder
(sources: src/field.rs, src/builder.rs, src/graph_builder.rs) and proofs
about its specified behaviour.

Machine integers are modelled as `Nat` with explicit reduction modulo
`2 ^ 64` (u64) or `2 ^ 32` (u32) wherever the Rust code can wrap in release
builds.  Rust `i128` arithmetic is modelled as `Int` (the i128 range is
never exceeded by this code); Rust truncated `%` and `/` on signed integers
are `Int.tmod` and `Int.tdiv`.  A Rust panic is modelled as the `none`
or `Except.error` case of the translated function.
-/

namespace ZKGraph

/-- The modulus of u64 machine arithmetic. -/
def U64MOD : Nat := 2 ^ 64

/-- The modulus of u32 machine arithmetic. -/
def U32MOD : Nat := 2 ^ 32

/-- Wrapping u64 addition. -/
def add64 (a b : Nat) : Nat := (a + b) % U64MOD

/-- Wrapping u64 multiplication. -/
def mul64 (a b : Nat) : Nat := (a * b) % U64MOD

/-- Wrapping u64 subtraction: release-build behaviour of `a - b` on u64. -/
def sub64 (a b : Nat) : Nat := (a % U64MOD + (U64MOD - b % U64MOD)) % U64MOD

/-- Struct `GaloisField<MODULUS>` from src/field.rs: a u64 value intended
to store the reduced value mod MODULUS. -/
structure GaloisField (p : Nat) where
  value : Nat
deriving DecidableEq, Repr

/-- `impl From<u64> for GaloisField` (src/field.rs lines 19-25). -/
def GaloisField.from_u64 (p : Nat) (v : Nat) : GaloisField p := ⟨v % p⟩

/-- `impl Add for GaloisField` (src/field.rs lines 28-36): u64 addition,
then reduction mod MODULUS. -/
def GaloisField.add {p : Nat} (a b : GaloisField p) : GaloisField p :=
  ⟨add64 a.value b.value % p⟩

/-- `impl Sub for GaloisField` (src/field.rs lines 38-46): u64 subtraction
(wrapping around on underflow in release builds), then reduction. -/
def GaloisField.sub {p : Nat} (a b : GaloisField p) : GaloisField p :=
  ⟨sub64 a.value b.value % p⟩

/-- `impl Mul for GaloisField` (src/field.rs lines 48-56): u64
multiplication, then reduction mod MODULUS. -/
def GaloisField.mul {p : Nat} (a b : GaloisField p) : GaloisField p :=
  ⟨mul64 a.value b.value % p⟩

/-- `extended_euclidean` from src/field.rs lines 71-77, on i128 modelled as
`Int`.  Returns `(gcd, x, y)` with `a*x + b*y = gcd`; `%` and `/` of Rust
i128 are the truncated `Int.tmod` and `Int.tdiv`. -/
def extended_euclidean (a b : Int) : Int × Int × Int :=
  if h : a = 0 then (b, 0, 1)
  else
    let r := extended_euclidean (Int.tmod b a) a
    (r.1, r.2.2 - Int.tdiv b a * r.2.1, r.2.1)
termination_by a.natAbs
decreasing_by
  have habs : (Int.tmod b a).natAbs = b.natAbs % a.natAbs := by
    cases b with
    | ofNat m =>
      cases a with
      | ofNat n => rfl
      | negSucc n => rfl
    | negSucc m =>
      cases a with
      | ofNat n =>
        show (-(Int.ofNat ((m + 1) % n))).natAbs = (m + 1) % n
        rw [Int.natAbs_neg]
        rfl
      | negSucc n =>
        show (-(Int.ofNat ((m + 1) % (n + 1)))).natAbs = (m + 1) % (n + 1)
        rw [Int.natAbs_neg]
        rfl
  rw [habs]
  exact Nat.mod_lt _ (Int.natAbs_pos.mpr h)

/-- `reciprocal` from src/field.rs lines 81-88.  `none` models the Rust
panic on division by zero, and an (in fact unreachable) failing
`try_into` when the adjusted coefficient is negative. -/
def reciprocal (a modulus : Nat) : Option Nat :=
  if a % modulus = 0 then none
  else
    let t := extended_euclidean ((a % modulus : Nat) : Int) (modulus : Int)
    let r := Int.tmod (t.2.1 + modulus) modulus
    if 0 ≤ r then some r.toNat else none

/-- `impl Div for GaloisField` (src/field.rs lines 58-66): multiplication
by the reciprocal; `none` propagates the reciprocal panic. -/
def GaloisField.div {p : Nat} (a b : GaloisField p) : Option (GaloisField p) :=
  (reciprocal b.value p).map (fun r => ⟨mul64 a.value r % p⟩)

/-! ### Data model of src/builder.rs

The node store is an append-only list; a Rust `Node` handle (an
`Arc<RawNode>` sharing the stored cell) is represented by the node's index
in the store, which the invariant `id = index` (claim C10) makes a faithful
proxy.  The `par_iter` loops of `fill_nodes` are modelled as in-order
folds; claim C9 proves the result is unchanged under any permutation of a
(depth, kind) bucket. -/

/-- Enum `Derivation` from src/builder.rs lines 47-54. -/
inductive Derivation where
  | Const
  | Input
  | Add
  | Mul
  | Hint
deriving DecidableEq, Repr

/-- Struct `RawNode` from src/builder.rs lines 63-70; the value cell holds
an optional u32. -/
structure RawNode where
  value : Option Nat
  depth : Nat
  id : Nat
  parents : List Nat
  derivation : Derivation
deriving Repr

/-- Struct `AddGate` from src/builder.rs lines 110-115. -/
structure AddGate where
  left_id : Nat
  right_id : Nat
  output_id : Nat
deriving DecidableEq, Repr

/-- Struct `MultiplyGate` from src/builder.rs lines 121-126. -/
structure MultiplyGate where
  left_id : Nat
  right_id : Nat
  output_id : Nat
deriving DecidableEq, Repr

/-- Struct `LambdaGate` from src/builder.rs lines 135-140; `lambda` is the
hint function `fn(Vec<u32>) -> u32`. -/
structure LambdaGate where
  input_ids : List Nat
  output_id : Nat
  lambda : List Nat → Nat

/-- Struct `LevelGates` from src/builder.rs lines 13-18. -/
structure LevelGates where
  adder_gates : List AddGate
  multiplier_gates : List MultiplyGate
  lambda_gates : List LambdaGate

/-- Struct `EqualityAssertion` from src/builder.rs lines 24-28. -/
structure EqualityAssertion where
  left_id : Nat
  right_id : Nat
deriving DecidableEq, Repr

/-- Struct `Builder` from src/builder.rs lines 37-43. -/
structure Builder where
  nodes : List RawNode
  gates : List LevelGates
  assertions : List EqualityAssertion
  next_id : Nat

/-- The node used as the default of out-of-range `getD` lookups; such
lookups never happen on reachable builder states. -/
def dfltNode : RawNode := ⟨none, 0, 0, [], Derivation.Const⟩

/-- Store lookup by index. -/
def nodeAt0 (ns : List RawNode) (i : Nat) : RawNode := ns.getD i dfltNode

/-- Builder store lookup by index. -/
def nodeAt (s : Builder) (i : Nat) : RawNode := nodeAt0 s.nodes i

/-- In-place update of one list entry (identity when out of range). -/
def listModify {α : Type} : List α → Nat → (α → α) → List α
  | [], _, _ => []
  | x :: xs, 0, f => f x :: xs
  | x :: xs, Nat.succ i, f => x :: listModify xs i f

/-- Writing a node value cell, `RawNode::set` at a store index. -/
def updateValue (ns : List RawNode) (i : Nat) (v : Option Nat) : List RawNode :=
  listModify ns i (fun n => { n with value := v })

/-- A `LevelGates` holding no gates, as pushed by add/mul/hint. -/
def emptyLevel : LevelGates := ⟨[], [], []⟩

/-- `Builder::new` (src/builder.rs lines 149-151): the all-empty default. -/
def Builder.new : Builder := ⟨[], [], [], 0⟩

/-- `Builder::init` (src/builder.rs lines 159-171): appends a fresh Input
node of depth 0 and returns it. -/
def Builder.init (s : Builder) : RawNode × Builder :=
  let node : RawNode := ⟨none, 0, s.next_id, [], Derivation.Input⟩
  (node, { s with nodes := s.nodes ++ [node], next_id := s.next_id + 1 })

/-- `Builder::batch_init` (src/builder.rs lines 182-195): appends
`num_inputs` Input nodes with ids pre-reserved from `next_id`. -/
def Builder.batch_init (s : Builder) (num_inputs : Nat) :
    List RawNode × Builder :=
  let vector_input : List RawNode := (List.range num_inputs).map
    (fun i => ⟨none, 0, s.next_id + i, [], Derivation.Input⟩)
  (vector_input,
   { s with nodes := s.nodes ++ vector_input,
            next_id := s.next_id + num_inputs })

/-- `Builder::set` (src/builder.rs lines 206-212): writes the value only
when the target has depth 0 and is not a Constant; otherwise it only logs
a warning and leaves the store unchanged. -/
def Builder.set (s : Builder) (i : Nat) (value : Nat) : Builder :=
  if (nodeAt s i).depth = 0 ∧ (nodeAt s i).derivation ≠ Derivation.Const then
    { s with nodes := updateValue s.nodes i (some value) }
  else s

/-- `Builder::batch_set` (src/builder.rs lines 223-232): per-element
guarded writes; the Rust length assertion is a hypothesis of the
corresponding `Reachable` constructor. -/
def Builder.batch_set (s : Builder) (idxs values : List Nat) : Builder :=
  (idxs.zip values).foldl (fun t iv => t.set iv.1 iv.2) s

/-- `Builder::constant` (src/builder.rs lines 243-254): appends a Constant
node pre-populated with the value. -/
def Builder.constant (s : Builder) (value : Nat) : RawNode × Builder :=
  let node : RawNode := ⟨some value, 0, s.next_id, [], Derivation.Const⟩
  (node, { s with nodes := s.nodes ++ [node], next_id := s.next_id + 1 })

/-- `Builder::batch_constant` (src/builder.rs lines 265-278). -/
def Builder.batch_constant (s : Builder) (values : List Nat) :
    List RawNode × Builder :=
  let vector_constant : List RawNode := (List.range values.length).map
    (fun i => ⟨some (values.getD i 0), 0, s.next_id + i, [],
      Derivation.Const⟩)
  (vector_constant,
   { s with nodes := s.nodes ++ vector_constant,
            next_id := s.next_id + values.length })

/-- `Builder::add` (src/builder.rs lines 291-324): appends the output node
at depth `max(depth a, depth b) + 1` and records an `AddGate` in the
bucket of that maximum depth, pushing one empty level first if the bucket
list is too short. -/
def Builder.add (s : Builder) (a b : Nat) : RawNode × Builder :=
  let depth_gate := max (nodeAt s a).depth (nodeAt s b).depth
  let output_node : RawNode :=
    ⟨none, depth_gate + 1, s.next_id, [(nodeAt s a).id, (nodeAt s b).id],
      Derivation.Add⟩
  let add_gate : AddGate :=
    ⟨(nodeAt s a).id, (nodeAt s b).id, output_node.id⟩
  let gates1 := if s.gates.length ≤ depth_gate
    then s.gates ++ [emptyLevel] else s.gates
  (output_node,
   { s with nodes := s.nodes ++ [output_node],
            next_id := s.next_id + 1,
            gates := listModify gates1 depth_gate
              (fun lg =>
                { lg with adder_gates := lg.adder_gates ++ [add_gate] }) })

/-- `Builder::mul` (src/builder.rs lines 337-370): as `add`, recording a
`MultiplyGate`. -/
def Builder.mul (s : Builder) (a b : Nat) : RawNode × Builder :=
  let depth_gate := max (nodeAt s a).depth (nodeAt s b).depth
  let output_node : RawNode :=
    ⟨none, depth_gate + 1, s.next_id, [(nodeAt s a).id, (nodeAt s b).id],
      Derivation.Mul⟩
  let multiply_gate : MultiplyGate :=
    ⟨(nodeAt s a).id, (nodeAt s b).id, output_node.id⟩
  let gates1 := if s.gates.length ≤ depth_gate
    then s.gates ++ [emptyLevel] else s.gates
  (output_node,
   { s with nodes := s.nodes ++ [output_node],
            next_id := s.next_id + 1,
            gates := listModify gates1 depth_gate
              (fun lg =>
                { lg with multiplier_gates :=
                    lg.multiplier_gates ++ [multiply_gate] }) })

/-- `Builder::hint` (src/builder.rs lines 382-418): output depth is
`max(arg depths) + 1`; the Rust `.max().unwrap()` panics on an empty
argument list, which the `Reachable` hint constructor excludes. -/
def Builder.hint (s : Builder) (arguments : List Nat)
    (lam : List Nat → Nat) : RawNode × Builder :=
  let depth_gate := ((arguments.map (fun i => (nodeAt s i).depth)).foldr
    max 0)
  let output_node : RawNode :=
    ⟨none, depth_gate + 1, s.next_id,
      arguments.map (fun i => (nodeAt s i).id), Derivation.Hint⟩
  let lambda_gate : LambdaGate :=
    ⟨arguments.map (fun i => (nodeAt s i).id), output_node.id, lam⟩
  let gates1 := if s.gates.length ≤ depth_gate
    then s.gates ++ [emptyLevel] else s.gates
  (output_node,
   { s with nodes := s.nodes ++ [output_node],
            next_id := s.next_id + 1,
            gates := listModify gates1 depth_gate
              (fun lg =>
                { lg with lambda_gates :=
                    lg.lambda_gates ++ [lambda_gate] }) })

/-- `Builder::assert_equal` (src/builder.rs lines 428-434). -/
def Builder.assert_equal (s : Builder) (a b : Nat) : Builder :=
  { s with assertions :=
      s.assertions ++ [⟨(nodeAt s a).id, (nodeAt s b).id⟩] }

/-- `Builder::batch_assert_equal` (src/builder.rs lines 445-454); the Rust
length assertion is a hypothesis of the `Reachable` constructor. -/
def Builder.batch_assert_equal (s : Builder)
    (left_args right_args : List Nat) : Builder :=
  let new_assertions : List EqualityAssertion :=
    (left_args.zip right_args).map
      (fun ab => ⟨(nodeAt s ab.1).id, (nodeAt s ab.2).id⟩)
  { s with assertions := s.assertions ++ new_assertions }

/-! ### Evaluation and constraint checking (src/builder.rs lines 461-533) -/

/-- Wrapping u32 addition, the `left_value + right_value` of an add gate. -/
def add32 (a b : Nat) : Nat := (a + b) % U32MOD

/-- Wrapping u32 multiplication of a multiply gate. -/
def mul32 (a b : Nat) : Nat := (a * b) % U32MOD

/-- The panic message of `RawNode::read` (src/builder.rs line 90): it
mentions the node id and nothing else. -/
def unfilledMsg (i : Nat) : String :=
  "Value unfilled at node with id " ++ toString i

/-- Modelled from the spec: the spec requires the UnfilledInput condition
to carry enough context, namely the node id AND its depth; this message
names both, whereas the panic of `RawNode::read` names the id only. -/
def unfilledMsgSpec (i depth : Nat) : String :=
  "Value unfilled at node with id " ++ toString i
    ++ " at depth " ++ toString depth

/-- The panic raised by an out-of-bounds store index. -/
def oobMsg : String := "index out of bounds"

/-- `RawNode::read` through a store index: the value if present, the
unfilled-value panic otherwise. -/
def readAt (ns : List RawNode) (i : Nat) : Except String Nat :=
  if i < ns.length then
    match (nodeAt0 ns i).value with
    | none => Except.error (unfilledMsg (nodeAt0 ns i).id)
    | some v => Except.ok v
  else Except.error oobMsg

/-- `self.nodes[gate.output_id].set(Some(v))` through a store index. -/
def writeAt (ns : List RawNode) (i : Nat) (v : Nat) :
    Except String (List RawNode) :=
  if i < ns.length then Except.ok (updateValue ns i (some v))
  else Except.error oobMsg

/-- Reading a list of operand values in order, the
`iter().map(read).collect()` of the lambda-gate closure: the first failing
read aborts the collection. -/
def readAll (ns : List RawNode) : List Nat → Except String (List Nat)
  | [] => Except.ok []
  | i :: rest => do
      let v ← readAt ns i
      let vs ← readAll ns rest
      Except.ok (v :: vs)

/-- Body of the add-gate closure in `fill_nodes`. -/
def runAdd (ns : List RawNode) (g : AddGate) :
    Except String (List RawNode) := do
  let left_value ← readAt ns g.left_id
  let right_value ← readAt ns g.right_id
  writeAt ns g.output_id (add32 left_value right_value)

/-- Body of the multiply-gate closure in `fill_nodes`. -/
def runMul (ns : List RawNode) (g : MultiplyGate) :
    Except String (List RawNode) := do
  let left_value ← readAt ns g.left_id
  let right_value ← readAt ns g.right_id
  writeAt ns g.output_id (mul32 left_value right_value)

/-- Body of the lambda-gate closure in `fill_nodes`: reads the argument
values in order and writes the lambda result (a u32 in Rust, hence the
wrap). -/
def runHint (ns : List RawNode) (g : LambdaGate) :
    Except String (List RawNode) := do
  let arguments ← readAll ns g.input_ids
  writeAt ns g.output_id (g.lambda arguments % U32MOD)

/-- One level of `fill_nodes`: all add gates, then all multiply gates,
then all lambda gates. -/
def runLevel (ns : List RawNode) (lg : LevelGates) :
    Except String (List RawNode) := do
  let ns1 ← lg.adder_gates.foldlM runAdd ns
  let ns2 ← lg.multiplier_gates.foldlM runMul ns1
  lg.lambda_gates.foldlM runHint ns2

/-- The level loop of `fill_nodes` over a gate bucket list. -/
def fill_go (ns : List RawNode) (gates : List LevelGates) :
    Except String (List RawNode) :=
  gates.foldlM runLevel ns

/-- `Builder::fill_nodes` (src/builder.rs lines 461-486). -/
def Builder.fill_nodes (s : Builder) : Except String Builder :=
  (fill_go s.nodes s.gates).map (fun ns => { s with nodes := ns })

/-- The assertion loop of `Builder::check_constraints`: reads both sides,
returns false at the first mismatch without looking at later assertions,
true if the list is exhausted. -/
def check_go (ns : List RawNode) : List EqualityAssertion → Except String Bool
  | [] => Except.ok true
  | a :: rest => do
      let future_left_value ← readAt ns a.left_id
      let future_right_value ← readAt ns a.right_id
      if future_left_value ≠ future_right_value then Except.ok false
      else check_go ns rest

/-- `Builder::check_constraints` (src/builder.rs lines 494-533); the async
wrapper suspends nothing and the debug logging does not affect the
result. -/
def Builder.check_constraints (s : Builder) : Except String Bool :=
  check_go s.nodes s.assertions

/-! ### Derived gate views used by the statements -/

/-- The output ids of all gates of one level. -/
def levelOuts (lg : LevelGates) : List Nat :=
  lg.adder_gates.map (fun g => g.output_id)
    ++ lg.multiplier_gates.map (fun g => g.output_id)
    ++ lg.lambda_gates.map (fun g => g.output_id)

/-- The output ids of every gate of the builder. -/
def allOutputs (s : Builder) : List Nat := (s.gates.map levelOuts).flatten

/-- The operand ids of all gates of one level. -/
def levelReads (lg : LevelGates) : List Nat :=
  lg.adder_gates.foldr (fun g acc => g.left_id :: g.right_id :: acc) []
    ++ lg.multiplier_gates.foldr (fun g acc => g.left_id :: g.right_id :: acc) []
    ++ lg.lambda_gates.foldr (fun g acc => g.input_ids ++ acc) []

/-- The operand ids of every gate of the builder. -/
def allReadIds (s : Builder) : List Nat := (s.gates.map levelReads).flatten

/-- The gate bucket of one depth level. -/
def levelAt (s : Builder) (d : Nat) : LevelGates := s.gates.getD d emptyLevel

/-! ### Reachable builder states

`Reachable s` holds exactly when `s` can be produced by a sequence of
calls of the public construction API on `Builder::new`, with every node
handle one returned by the same builder (represented by its index) and
with the batch length assertions satisfied. -/

/-- The builder states reachable through the construction API. -/
inductive Reachable : Builder → Prop where
  | new : Reachable Builder.new
  | init {s : Builder} :
      Reachable s → Reachable (s.init).2
  | batch_init {s : Builder} (n : Nat) :
      Reachable s → Reachable (s.batch_init n).2
  | constant {s : Builder} (v : Nat) :
      Reachable s → Reachable (s.constant v).2
  | batch_constant {s : Builder} (vs : List Nat) :
      Reachable s → Reachable (s.batch_constant vs).2
  | set {s : Builder} {i v : Nat} :
      Reachable s → i < s.nodes.length → Reachable (s.set i v)
  | batch_set {s : Builder} {idxs vs : List Nat} :
      Reachable s → idxs.length = vs.length →
      (∀ i ∈ idxs, i < s.nodes.length) → Reachable (s.batch_set idxs vs)
  | add {s : Builder} {a b : Nat} :
      Reachable s → a < s.nodes.length → b < s.nodes.length →
      Reachable (s.add a b).2
  | mul {s : Builder} {a b : Nat} :
      Reachable s → a < s.nodes.length → b < s.nodes.length →
      Reachable (s.mul a b).2
  | hint {s : Builder} {args : List Nat} {lam : List Nat → Nat} :
      Reachable s → args ≠ [] → (∀ i ∈ args, i < s.nodes.length) →
      Reachable (s.hint args lam).2
  | assert_equal {s : Builder} {a b : Nat} :
      Reachable s → a < s.nodes.length → b < s.nodes.length →
      Reachable (s.assert_equal a b)
  | batch_assert_equal {s : Builder} {ls rs : List Nat} :
      Reachable s → ls.length = rs.length →
      (∀ i ∈ ls, i < s.nodes.length) → (∀ i ∈ rs, i < s.nodes.length) →
      Reachable (s.batch_assert_equal ls rs)

/-! ### Structural invariant of reachable builders -/

/-- Shape of a recorded two-operand gate at bucket depth `d`. -/
structure GateShape (s : Builder) (d : Nat) (left right out : Nat)
    (k : Derivation) : Prop where
  left_lt : left < s.nodes.length
  right_lt : right < s.nodes.length
  out_lt : out < s.nodes.length
  depth_eq : max (nodeAt s left).depth (nodeAt s right).depth = d
  out_depth : (nodeAt s out).depth = d + 1
  out_parents : (nodeAt s out).parents = [left, right]
  out_deriv : (nodeAt s out).derivation = k

/-- Shape of a recorded lambda gate at bucket depth `d`. -/
structure HintShape (s : Builder) (d : Nat) (ins : List Nat) (out : Nat) :
    Prop where
  ins_lt : ∀ i ∈ ins, i < s.nodes.length
  out_lt : out < s.nodes.length
  depth_eq : (ins.map (fun i => (nodeAt s i).depth)).foldr max 0 = d
  out_depth : (nodeAt s out).depth = d + 1
  out_parents : (nodeAt s out).parents = ins
  out_deriv : (nodeAt s out).derivation = Derivation.Hint

/-- The structural invariant maintained by every construction call. -/
structure Inv (s : Builder) : Prop where
  next_id_eq : s.next_id = s.nodes.length
  id_eq : ∀ i, i < s.nodes.length → (nodeAt s i).id = i
  base_shape : ∀ n ∈ s.nodes,
    (n.derivation = Derivation.Input ∨ n.derivation = Derivation.Const) →
    n.depth = 0 ∧ n.parents = []
  derived_pos : ∀ n ∈ s.nodes,
    (n.derivation = Derivation.Add ∨ n.derivation = Derivation.Mul ∨
      n.derivation = Derivation.Hint) → 1 ≤ n.depth
  depth_le : ∀ n ∈ s.nodes, n.depth ≤ s.gates.length
  add_shape : ∀ d, d < s.gates.length → ∀ g ∈ (levelAt s d).adder_gates,
    GateShape s d g.left_id g.right_id g.output_id Derivation.Add
  mul_shape : ∀ d, d < s.gates.length →
    ∀ g ∈ (levelAt s d).multiplier_gates,
    GateShape s d g.left_id g.right_id g.output_id Derivation.Mul
  hint_shape : ∀ d, d < s.gates.length → ∀ g ∈ (levelAt s d).lambda_gates,
    HintShape s d g.input_ids g.output_id
  add_sorted : ∀ d, d < s.gates.length →
    ((levelAt s d).adder_gates.map (fun g => g.output_id)).Pairwise (· < ·)
  mul_sorted : ∀ d, d < s.gates.length →
    ((levelAt s d).multiplier_gates.map (fun g => g.output_id)).Pairwise
      (· < ·)
  hint_sorted : ∀ d, d < s.gates.length →
    ((levelAt s d).lambda_gates.map (fun g => g.output_id)).Pairwise (· < ·)
  assert_lt : ∀ a ∈ s.assertions,
    a.left_id < s.nodes.length ∧ a.right_id < s.nodes.length

/-! ### Data model of src/graph_builder.rs (for the `set` comparison)

The generic `GraphBuilder<F>` keeps `Node<F>` records without a
derivation tag, and its `set` writes any node unconditionally
(src/graph_builder.rs lines 140-147). -/

/-- Struct `Node<F>` from src/graph_builder.rs lines 47-52. -/
structure GBNode (F : Type) where
  value : Option F
  depth : Nat
  id : Nat

/-- Struct `LambdaGate<F>` from src/graph_builder.rs lines 95-100. -/
structure GBLambdaGate (F : Type) where
  input_ids : List Nat
  output_id : Nat
  lambda : List F → F

/-- Struct `LevelGates<F>` from src/graph_builder.rs lines 13-18. -/
structure GBLevelGates (F : Type) where
  adder_gates : List AddGate
  multiplier_gates : List MultiplyGate
  lambda_gates : List (GBLambdaGate F)

/-- Struct `GraphBuilder<F>` from src/graph_builder.rs lines 37-43. -/
structure GraphBuilder (F : Type) where
  nodes : List (GBNode F)
  gates : List (GBLevelGates F)
  assertions : List EqualityAssertion
  next_id : Nat

/-- `GraphBuilder::new` (src/graph_builder.rs lines 104-111). -/
def GraphBuilder.new (F : Type) : GraphBuilder F := ⟨[], [], [], 0⟩

/-- `GraphBuilder::init` (src/graph_builder.rs lines 114-124). -/
def GraphBuilder.init {F : Type} (s : GraphBuilder F) :
    GBNode F × GraphBuilder F :=
  let node : GBNode F := ⟨none, 0, s.next_id⟩
  (node, { s with nodes := s.nodes ++ [node], next_id := s.next_id + 1 })

/-- `GraphBuilder::constant` (src/graph_builder.rs lines 157-166). -/
def GraphBuilder.constant {F : Type} (s : GraphBuilder F) (value : F) :
    GBNode F × GraphBuilder F :=
  let node : GBNode F := ⟨some value, 0, s.next_id⟩
  (node, { s with nodes := s.nodes ++ [node], next_id := s.next_id + 1 })

/-- `GraphBuilder::set` (src/graph_builder.rs lines 145-147): writes the
value cell of ANY node, with no guard at all. -/
def GraphBuilder.set {F : Type} (s : GraphBuilder F) (i : Nat) (value : F) :
    GraphBuilder F :=
  let write : GBNode F → GBNode F := fun n => { n with value := some value }
  { s with nodes := listModify s.nodes i write }

/-! ### Concrete builders used by the witnesses -/

/-- One Input node, set to 5. -/
def sampleB1 : Builder := ((Builder.new.init).2.set 0 5)

/-- One Input node set to 5, one add gate squaring it. -/
def sampleB2 : Builder := (sampleB1.add 0 0).2

/-- One Input node never set, one add gate reading it. -/
def sampleUnset : Builder := (((Builder.new.init).2.add 0 0)).2

/-- Two equal Constant nodes and one assertion between them. -/
def sampleAssert : Builder :=
  (((Builder.new.constant 4).2.constant 4).2.assert_equal 0 1)

/-- One Input node set to 5 and two add gates in the same bucket. -/
def sampleB3 : Builder := ((sampleB1.add 0 0).2.add 0 0).2

/-- The node store of `sampleB3` after one evaluation pass. -/
def sampleB3Filled : Builder :=
  { sampleB3 with
    nodes := updateValue (updateValue sampleB3.nodes 1 (some 10)) 2
      (some 10) }

/-! ### A generic view of gate execution

Each of the three gate closures of `fill_nodes` reads a list of node
values and writes one function of them into one output cell; the
scheduling argument of claim C9 and the failure analysis of claim C8 are
proved once over this view. -/

/-- A gate reduced to its reads, its write target and its function. -/
structure GenGate where
  reads : List Nat
  target : Nat
  f : List Nat → Nat

/-- Executing a generic gate: read all operands, write the result. -/
def runGen (ns : List RawNode) (g : GenGate) :
    Except String (List RawNode) := do
  let arguments ← readAll ns g.reads
  writeAt ns g.target (g.f arguments)

/-- The generic view of an add gate. -/
def AddGate.toGen (g : AddGate) : GenGate :=
  ⟨[g.left_id, g.right_id], g.output_id,
    fun args => add32 (args.getD 0 0) (args.getD 1 0)⟩

/-- The generic view of a multiply gate. -/
def MultiplyGate.toGen (g : MultiplyGate) : GenGate :=
  ⟨[g.left_id, g.right_id], g.output_id,
    fun args => mul32 (args.getD 0 0) (args.getD 1 0)⟩

/-- The generic view of a lambda gate. -/
def LambdaGate.toGen (g : LambdaGate) : GenGate :=
  ⟨g.input_ids, g.output_id, fun args => g.lambda args % U32MOD⟩

/-- The value stored at a node, defaulting to 0 when absent. -/
def readD (ns : List RawNode) (i : Nat) : Nat :=
  ((nodeAt0 ns i).value).getD 0

/-- The value a generic gate computes from the store `ns0`. -/
def pureVal (ns0 : List RawNode) (g : GenGate) : Nat :=
  g.f (g.reads.map (readD ns0))

/-- Writing every gate's value (computed from `ns0`) into `ns`. -/
def writeAll (ns0 : List RawNode) (gs : List GenGate)
    (ns : List RawNode) : List RawNode :=
  gs.foldl (fun t g => updateValue t g.target (some (pureVal ns0 g))) ns

/-- Two bucket lists that agree up to a permutation of every
(depth, kind) bucket: the abstraction of a different parallel schedule of
`fill_nodes`. -/
def BucketsPerm (g1 g2 : List LevelGates) : Prop :=
  List.Forall₂
    (fun x y => x.adder_gates.Perm y.adder_gates ∧
      x.multiplier_gates.Perm y.multiplier_gates ∧
      x.lambda_gates.Perm y.lambda_gates) g1 g2

/-- Two stores of the same shape: evaluation only changes value cells. -/
def ShapeEq (ns ns' : List RawNode) : Prop :=
  ns'.length = ns.length ∧
  ∀ j, (nodeAt0 ns' j).depth = (nodeAt0 ns j).depth ∧
    (nodeAt0 ns' j).id = (nodeAt0 ns j).id ∧
    (nodeAt0 ns' j).parents = (nodeAt0 ns j).parents ∧
    (nodeAt0 ns' j).derivation = (nodeAt0 ns j).derivation

/-- A cell unfilled after evaluation steps was unfilled before them. -/
def UnfilledBack (ns ns' : List RawNode) : Prop :=
  ∀ j, (nodeAt0 ns' j).value = none → (nodeAt0 ns j).value = none

/-- Well-formedness of one generic gate of bucket depth `d`: operands sit
at depth at most `d`, the target is in bounds at depth `d + 1`. -/
def KindWf (ns : List RawNode) (d : Nat) (g : GenGate) : Prop :=
  (∀ i ∈ g.reads, i < ns.length ∧ (nodeAt0 ns i).depth ≤ d) ∧
  g.target < ns.length ∧ (nodeAt0 ns g.target).depth = d + 1

/-- Well-formedness of a whole level at bucket depth `d`. -/
def LevelWf (ns : List RawNode) (d : Nat) (lg : LevelGates) : Prop :=
  (∀ g ∈ lg.adder_gates.map AddGate.toGen, KindWf ns d g) ∧
  (∀ g ∈ lg.multiplier_gates.map MultiplyGate.toGen, KindWf ns d g) ∧
  (∀ g ∈ lg.lambda_gates.map LambdaGate.toGen, KindWf ns d g) ∧
  ((lg.adder_gates.map AddGate.toGen).map (fun g => g.target)).Nodup ∧
  ((lg.multiplier_gates.map MultiplyGate.toGen).map
    (fun g => g.target)).Nodup ∧
  ((lg.lambda_gates.map LambdaGate.toGen).map (fun g => g.target)).Nodup

/-! ### Theorems about the field implementation -/

/-- Unfolding equation of `extended_euclidean` in the base case. -/
theorem extended_euclidean_zero (b : Int) : extended_euclidean 0 b = (b, 0, 1) := by
  rw [extended_euclidean]
  simp

/-- Unfolding equation of `extended_euclidean` in the recursive case. -/
theorem extended_euclidean_step (a b : Int) (h : a ≠ 0) :
    extended_euclidean a b =
      ((extended_euclidean (Int.tmod b a) a).1,
       (extended_euclidean (Int.tmod b a) a).2.2
         - Int.tdiv b a * (extended_euclidean (Int.tmod b a) a).2.1,
       (extended_euclidean (Int.tmod b a) a).2.1) := by
  rw [extended_euclidean]
  simp only [dif_neg h]

/-- Bezout identity of the translated extended Euclidean algorithm. -/
theorem extended_euclidean_bezout (a b : Int) :
    a * (extended_euclidean a b).2.1 + b * (extended_euclidean a b).2.2
      = (extended_euclidean a b).1 := by
  induction a, b using extended_euclidean.induct with
  | case1 b =>
    simp [extended_euclidean_zero]
  | case2 a b h ih =>
    rw [extended_euclidean_step a b h]
    have htm : Int.tmod b a = b - a * Int.tdiv b a := Int.tmod_def b a
    linear_combination ih - (extended_euclidean (Int.tmod b a) a).2.1 * htm

/-- On naturals, the first component of `extended_euclidean` is the gcd. -/
theorem extended_euclidean_gcd (a b : Nat) :
    (extended_euclidean (a : Int) (b : Int)).1 = (Nat.gcd a b : Int) := by
  induction a using Nat.strong_induction_on generalizing b with
  | _ a ih =>
    rcases Nat.eq_zero_or_pos a with h0 | hpos
    · subst h0
      simp [extended_euclidean_zero]
    · have hne : (a : Int) ≠ 0 := by
        exact_mod_cast Nat.pos_iff_ne_zero.mp hpos
      rw [extended_euclidean_step _ _ hne]
      rw [show Int.tmod (b : Int) (a : Int) = ((b % a : Nat) : Int) from
        (Int.ofNat_tmod b a).symm]
      rw [ih (b % a) (Nat.mod_lt b hpos) a]
      rw [Nat.gcd_rec a b]

/-- Size bound on the Bezout coefficients produced by
`extended_euclidean` on natural inputs with positive second argument. -/
theorem extended_euclidean_coeff_bound (a : Nat) :
    ∀ b : Nat, 1 ≤ b →
      (extended_euclidean (a : Int) (b : Int)).2.1.natAbs ≤ b ∧
      (extended_euclidean (a : Int) (b : Int)).2.2.natAbs ≤ max a 1 := by
  induction a using Nat.strong_induction_on with
  | _ a ih =>
    intro b hb
    rcases Nat.eq_zero_or_pos a with h0 | hpos
    · subst h0
      simp [extended_euclidean_zero]
    · have hne : (a : Int) ≠ 0 := by
        exact_mod_cast Nat.pos_iff_ne_zero.mp hpos
      rw [extended_euclidean_step _ _ hne]
      rw [show Int.tmod (b : Int) (a : Int) = ((b % a : Nat) : Int) from
        (Int.ofNat_tmod b a).symm]
      rw [show Int.tdiv (b : Int) (a : Int) = ((b / a : Nat) : Int) from
        (Int.ofNat_tdiv b a).symm]
      obtain ⟨hx1, hy1⟩ := ih (b % a) (Nat.mod_lt b hpos) a hpos
      constructor
      · rcases Nat.eq_zero_or_pos (b % a) with hba | hba
        · rw [hba]
          show ((extended_euclidean ((0 : Nat) : Int) a).2.2
            - _ * (extended_euclidean ((0 : Nat) : Int) a).2.1).natAbs ≤ b
          rw [show ((0 : Nat) : Int) = (0 : Int) from rfl, extended_euclidean_zero]
          simpa using hb
        · calc ((extended_euclidean ((b % a : Nat) : Int) a).2.2
                - ((b / a : Nat) : Int)
                  * (extended_euclidean ((b % a : Nat) : Int) a).2.1).natAbs
              ≤ (extended_euclidean ((b % a : Nat) : Int) a).2.2.natAbs
                + (((b / a : Nat) : Int)
                  * (extended_euclidean ((b % a : Nat) : Int) a).2.1).natAbs :=
                Int.natAbs_sub_le _ _
            _ = (extended_euclidean ((b % a : Nat) : Int) a).2.2.natAbs
                + (b / a)
                  * (extended_euclidean ((b % a : Nat) : Int) a).2.1.natAbs := by
                rw [Int.natAbs_mul, Int.natAbs_ofNat]
            _ ≤ (b % a) + (b / a) * a := by
                have h1 : (extended_euclidean ((b % a : Nat) : Int) a).2.2.natAbs
                    ≤ b % a := by
                  rw [Nat.max_eq_left hba] at hy1
                  exact hy1
                exact Nat.add_le_add h1
                  (Nat.mul_le_mul_left _ hx1)
            _ = b := Nat.mod_add_div' b a
      · have : max a 1 = a := by omega
        rw [this]
        exact hx1

/-- Master lemma for `reciprocal`: whenever the Rust code does not panic on
the zero check, it returns `some r` with `r < modulus` and
`a * r` congruent to `gcd(modulus, a)` modulo the modulus. -/
theorem reciprocal_spec (a p : Nat) (hp : 0 < p) (ha : a % p ≠ 0) :
    ∃ r : Nat, reciprocal a p = some r ∧ r < p ∧
      ((a * r : Nat) : Int) % (p : Int) = ((Nat.gcd p a : Nat) : Int) % (p : Int) := by
  set A : Nat := a % p with hA
  set x : Int := (extended_euclidean (A : Int) (p : Int)).2.1 with hx
  have hbound : x.natAbs ≤ p := (extended_euclidean_coeff_bound A p hp).1
  have hxp : (0 : Int) ≤ x + p := by
    have h1 := neg_abs_le x
    rw [Int.abs_eq_natAbs] at h1
    have hcast : (x.natAbs : Int) ≤ (p : Int) := by exact_mod_cast hbound
    omega
  have hppos : (0 : Int) < (p : Int) := by exact_mod_cast hp
  have htm : Int.tmod (x + p) p = (x + p) % p :=
    Int.tmod_eq_emod hxp (le_of_lt hppos)
  have hrnn : (0 : Int) ≤ Int.tmod (x + p) p := by
    rw [htm]
    exact Int.emod_nonneg _ (by omega)
  have hrec : reciprocal a p = some (Int.tmod (x + p) p).toNat := by
    rw [reciprocal, if_neg ha]
    simp only [← hA, ← hx, if_pos hrnn]
  refine ⟨(Int.tmod (x + p) p).toNat, hrec, ?_, ?_⟩
  · have hlt : Int.tmod (x + p) p < p := by
      rw [htm]
      exact Int.emod_lt_of_pos _ hppos
    omega
  · have hcast : (((Int.tmod (x + p) p).toNat : Int)) = (x + p) % p := by
      rw [← htm]
      exact Int.toNat_of_nonneg hrnn
    have hbez : (A : Int) * x + (p : Int)
        * (extended_euclidean (A : Int) (p : Int)).2.2
        = ((Nat.gcd A p : Nat) : Int) := by
      have h1 := extended_euclidean_bezout (A : Int) (p : Int)
      rw [extended_euclidean_gcd A p] at h1
      exact h1
    have hgcd : Nat.gcd A p = Nat.gcd p a := by
      rw [hA, ← Nat.gcd_rec p a]
    rw [Nat.cast_mul, hcast]
    rw [hgcd] at hbez
    have haA : ((a : Int)) % p = (A : Int) % p := by
      rw [hA]
      push_cast
      rw [Int.emod_emod_of_dvd _ dvd_rfl]
    calc ((a : Int) * ((x + p) % p)) % p
        = ((a : Int) % p * (((x + p) % p) % p)) % p := by
          rw [Int.mul_emod]
      _ = ((A : Int) % p * ((x + p) % p)) % p := by
          rw [haA, Int.emod_emod_of_dvd _ dvd_rfl]
      _ = ((A : Int) * (x + p)) % p := by
          rw [← Int.mul_emod]
      _ = ((A : Int) * x + (A : Int) * p) % p := by
          ring_nf
      _ = ((A : Int) * x) % p := by
          rw [Int.add_mul_emod_self]
      _ = ((A : Int) * x + (p : Int)
            * (extended_euclidean (A : Int) (p : Int)).2.2) % p := by
          rw [Int.add_mul_emod_self_left]
      _ = ((Nat.gcd p a : Nat) : Int) % p := by
          rw [hbez]

/-- C4: for a prime modulus p and every integer a with 1 ≤ a < p,
`reciprocal a p` returns some r with r in [0, p) and a * r ≡ 1 (mod p),
the adjusted Bezout coefficient of the extended Euclidean algorithm. -/
theorem reciprocal_correct (p a : Nat) (hp : Nat.Prime p)
    (h1 : 1 ≤ a) (h2 : a < p) :
    ∃ r : Nat, reciprocal a p = some r ∧ r < p ∧ (a * r) % p = 1 := by
  have hp0 : 0 < p := hp.pos
  have hmod : a % p = a := Nat.mod_eq_of_lt h2
  have hane : a % p ≠ 0 := by omega
  obtain ⟨r, hr, hrlt, hcong⟩ := reciprocal_spec a p hp0 hane
  refine ⟨r, hr, hrlt, ?_⟩
  have hgcd : Nat.gcd p a = 1 := by
    have hnd : ¬ p ∣ a := by
      intro hdvd
      have := Nat.le_of_dvd (by omega) hdvd
      omega
    exact (Nat.Prime.coprime_iff_not_dvd hp).mpr hnd
  rw [hgcd] at hcong
  have hcast : ((a * r) % p : Nat) = (1 % p : Nat) := by
    rw [← Int.ofNat_emod, ← Int.ofNat_emod] at hcong
    exact_mod_cast hcong
  have h1p : (1 : Nat) % p = 1 := Nat.mod_eq_of_lt hp.one_lt
  omega

/-- C4 witness: the inverse of 2 modulo the prime 5. -/
theorem reciprocal_correct_witness :
    ∃ r : Nat, reciprocal 2 5 = some r ∧ r < 5 ∧ (2 * r) % 5 = 1 :=
  reciprocal_correct 5 2 (by norm_num) (by decide) (by decide)

/-- C5: `div a b` fails (with the division-by-zero panic) exactly when the
divisor is congruent to zero modulo p. -/
theorem div_fails_iff_zero (p : Nat) (hp : 0 < p) (a b : GaloisField p) :
    GaloisField.div a b = none ↔ b.value % p = 0 := by
  constructor
  · intro hnone
    by_contra hbz
    obtain ⟨r, hr, _, _⟩ := reciprocal_spec b.value p hp hbz
    rw [GaloisField.div, hr] at hnone
    simp at hnone
  · intro hbz
    rw [GaloisField.div, reciprocal, if_pos hbz]
    rfl

/-- C5 witness: division by the zero element of GaloisField 5 fails. -/
theorem div_fails_iff_zero_witness :
    GaloisField.div (⟨2⟩ : GaloisField 5) ⟨0⟩ = none ↔
      (⟨0⟩ : GaloisField 5).value % 5 = 0 :=
  div_fails_iff_zero 5 (by decide) ⟨2⟩ ⟨0⟩

/-- C6 amended: for a prime modulus p with p ≤ 2^32 (so that the u64
products cannot wrap) and reduced field elements a, b with b not congruent
to zero, div(mul(a, b), b) = a. -/
theorem div_mul_cancel (p : Nat) (hp : Nat.Prime p) (hsmall : p ≤ 2 ^ 32)
    (a b : GaloisField p) (ha : a.value < p) (hb : b.value < p)
    (hb0 : b.value ≠ 0) :
    GaloisField.div (GaloisField.mul a b) b = some a := by
  have hp0 : 0 < p := hp.pos
  have hpow : U64MOD = 2 ^ 64 := rfl
  have hsq : (2 ^ 32 - 1) * (2 ^ 32 - 1) < 2 ^ 64 := by norm_num
  obtain ⟨r, hr, hrlt, hbr⟩ := reciprocal_correct p b.value hp (by omega) hb
  obtain ⟨av⟩ := a
  obtain ⟨bv⟩ := b
  simp only at ha hb hb0 hr hbr ⊢
  have hm1 : mul64 av bv = av * bv := by
    rw [mul64]
    apply Nat.mod_eq_of_lt
    rw [hpow]
    calc av * bv ≤ (2 ^ 32 - 1) * (2 ^ 32 - 1) :=
          Nat.mul_le_mul (by omega) (by omega)
      _ < 2 ^ 64 := hsq
  have hm2 : mul64 (av * bv % p) r = (av * bv % p) * r := by
    rw [mul64]
    apply Nat.mod_eq_of_lt
    rw [hpow]
    have hmp : av * bv % p < p := Nat.mod_lt _ hp0
    calc (av * bv % p) * r ≤ (2 ^ 32 - 1) * (2 ^ 32 - 1) :=
          Nat.mul_le_mul (by omega) (by omega)
      _ < 2 ^ 64 := hsq
  rw [GaloisField.mul, GaloisField.div]
  simp only [hm1, hr, Option.map_some']
  have hval : (av * bv % p) * r % p = av := by
    rw [Nat.mod_mul_mod, Nat.mul_assoc, Nat.mul_mod, hbr, Nat.mul_one,
      Nat.mod_mod_of_dvd _ dvd_rfl, Nat.mod_eq_of_lt ha]
  simp only [hm2, hval]

/-- C6 witness: in GaloisField 5, div(mul(2, 3), 3) = 2. -/
theorem div_mul_cancel_witness :
    GaloisField.div (GaloisField.mul (⟨2⟩ : GaloisField 5) ⟨3⟩) ⟨3⟩ =
      some ⟨2⟩ :=
  div_mul_cancel 5 (by norm_num) (by norm_num) ⟨2⟩ ⟨3⟩ (by decide) (by decide)
    (by decide)

/-- C6 counterexample: the claim quantifies over every modulus, but with
the non-prime modulus 4 and b = 2 (not congruent to 0 mod 4),
div(mul(1, 2), 2) is not 1. -/
theorem div_mul_cancel_cex :
    (⟨2⟩ : GaloisField 4).value % 4 ≠ 0 ∧
    GaloisField.div (GaloisField.mul (⟨1⟩ : GaloisField 4) ⟨2⟩) ⟨2⟩ ≠
      some ⟨1⟩ := by
  refine ⟨by decide, ?_⟩
  obtain ⟨r, hr, hrlt, hcong⟩ := reciprocal_spec 2 4 (by decide) (by decide)
  have h2 : (2 * r) % 4 = 2 := by
    have hnat : ((2 * r) % 4 : Nat) = (Nat.gcd 4 2) % 4 := by
      rw [← Int.ofNat_emod, ← Int.ofNat_emod] at hcong
      exact_mod_cast hcong
    simpa using hnat
  intro hEq
  rw [show GaloisField.mul (⟨1⟩ : GaloisField 4) ⟨2⟩ = (⟨2⟩ : GaloisField 4)
    from by decide] at hEq
  rw [GaloisField.div, hr] at hEq
  simp only [Option.map_some', Option.some.injEq, GaloisField.mk.injEq] at hEq
  have hm : mul64 2 r = 2 * r := by
    rw [mul64]
    apply Nat.mod_eq_of_lt
    show 2 * r < 2 ^ 64
    calc 2 * r < 2 * 4 := by omega
      _ < 2 ^ 64 := by norm_num
  rw [hm] at hEq
  omega

/-- C7: the u64 subtraction in `GaloisField.sub` underflows whenever
a < b; at modulus 7 with a = 1, b = 3 the code yields 0 in release builds
(and panics in debug builds), while field subtraction (1 - 3) mod 7,
namely (7 + 1 - 3) % 7, is 5 — and 0 fails the defining property
(c + b) % p = a % p of the claimed result. -/
theorem sub_underflow_bug :
    (GaloisField.sub (⟨1⟩ : GaloisField 7) ⟨3⟩).value = 0 ∧
    (7 + 1 - 3) % 7 = 5 ∧
    ((GaloisField.sub (⟨1⟩ : GaloisField 7) ⟨3⟩).value + 3) % 7 ≠ 1 % 7 := by
  refine ⟨?_, by norm_num, ?_⟩ <;> decide

/-! ### List helper lemmas -/

theorem listModify_length {α : Type} (l : List α) (i : Nat) (f : α → α) :
    (listModify l i f).length = l.length := by
  induction l generalizing i with
  | nil => rfl
  | cons x xs ih =>
    cases i with
    | zero => rfl
    | succ j => simpa [listModify] using ih j

theorem getD_listModify_ne {α : Type} (l : List α) (i j : Nat) (f : α → α)
    (d : α) (h : i ≠ j) :
    (listModify l i f).getD j d = l.getD j d := by
  induction l generalizing i j with
  | nil => rfl
  | cons x xs ih =>
    cases i with
    | zero =>
      cases j with
      | zero => exact absurd rfl h
      | succ jj => rfl
    | succ ii =>
      cases j with
      | zero => rfl
      | succ jj =>
        simpa [listModify] using ih ii jj (by omega)

theorem getD_listModify_self {α : Type} (l : List α) (i : Nat) (f : α → α)
    (d : α) (h : i < l.length) :
    (listModify l i f).getD i d = f (l.getD i d) := by
  induction l generalizing i with
  | nil => simp at h
  | cons x xs ih =>
    cases i with
    | zero => rfl
    | succ j =>
      simpa [listModify] using ih j (by simpa using h)

theorem listModify_oob {α : Type} (l : List α) (i : Nat) (f : α → α)
    (h : l.length ≤ i) : listModify l i f = l := by
  induction l generalizing i with
  | nil => rfl
  | cons x xs ih =>
    cases i with
    | zero => simp at h
    | succ j => simpa [listModify] using ih j (by simpa using h)

theorem mem_listModify {α : Type} (l : List α) (i : Nat) (f : α → α) :
    ∀ n ∈ listModify l i f, n ∈ l ∨ ∃ m ∈ l, n = f m := by
  induction l generalizing i with
  | nil => intro n hn; exact absurd hn (by simp [listModify])
  | cons x xs ih =>
    cases i with
    | zero =>
      intro n hn
      rcases List.mem_cons.mp hn with h | h
      · exact Or.inr ⟨x, List.mem_cons_self x xs, h⟩
      · exact Or.inl (List.mem_cons_of_mem x h)
    | succ j =>
      intro n hn
      rcases List.mem_cons.mp hn with h | h
      · exact Or.inl (h ▸ List.mem_cons_self x xs)
      · rcases ih j n h with h1 | ⟨m, hm, hfm⟩
        · exact Or.inl (List.mem_cons_of_mem x h1)
        · exact Or.inr ⟨m, List.mem_cons_of_mem x hm, hfm⟩

theorem getD_map_range {α : Type} (n k : Nat) (f : Nat → α) (d : α)
    (h : k < n) : ((List.range n).map f).getD k d = f k := by
  have hlen : k < ((List.range n).map f).length := by simpa using h
  rw [List.getD_eq_getElem _ _ hlen]
  simp

theorem getD_mem' {α : Type} (l : List α) (i : Nat) (d : α)
    (h : i < l.length) : l.getD i d ∈ l := by
  rw [List.getD_eq_getElem _ _ h]
  exact List.getElem_mem h

/-! ### Store lookup lemmas -/

theorem nodeAt0_append_lt (ns ms : List RawNode) (i : Nat)
    (h : i < ns.length) : nodeAt0 (ns ++ ms) i = nodeAt0 ns i :=
  List.getD_append ns ms dfltNode i h

theorem nodeAt0_append_right (ns ms : List RawNode) (i : Nat)
    (h : ns.length ≤ i) :
    nodeAt0 (ns ++ ms) i = nodeAt0 ms (i - ns.length) :=
  List.getD_append_right ns ms dfltNode i h

theorem nodeAt0_updateValue_ne (ns : List RawNode) (i j : Nat)
    (v : Option Nat) (h : i ≠ j) :
    nodeAt0 (updateValue ns i v) j = nodeAt0 ns j :=
  getD_listModify_ne ns i j _ dfltNode h

theorem nodeAt0_updateValue_self (ns : List RawNode) (i : Nat)
    (v : Option Nat) (h : i < ns.length) :
    nodeAt0 (updateValue ns i v) i = { nodeAt0 ns i with value := v } :=
  getD_listModify_self ns i _ dfltNode h

theorem updateValue_length (ns : List RawNode) (i : Nat) (v : Option Nat) :
    (updateValue ns i v).length = ns.length :=
  listModify_length ns i _

theorem nodeAt_mem (s : Builder) (i : Nat) (h : i < s.nodes.length) :
    nodeAt s i ∈ s.nodes :=
  getD_mem' s.nodes i dfltNode h

/-! ### Shape transfer lemmas -/

theorem gateShape_extend {s s' : Builder} {d left right out : Nat}
    {k : Derivation} (hg : GateShape s d left right out k)
    (hn : s'.nodes = s.nodes ++ ms) : GateShape s' d left right out k := by
  have hlen : s.nodes.length ≤ s'.nodes.length := by
    rw [hn]; simp
  have heq : ∀ j, j < s.nodes.length → nodeAt s' j = nodeAt s j := by
    intro j hj
    show nodeAt0 s'.nodes j = nodeAt0 s.nodes j
    rw [hn]
    exact nodeAt0_append_lt _ _ _ hj
  exact ⟨by have := hg.left_lt; omega, by have := hg.right_lt; omega,
    by have := hg.out_lt; omega,
    by rw [heq _ hg.left_lt, heq _ hg.right_lt]; exact hg.depth_eq,
    by rw [heq _ hg.out_lt]; exact hg.out_depth,
    by rw [heq _ hg.out_lt]; exact hg.out_parents,
    by rw [heq _ hg.out_lt]; exact hg.out_deriv⟩

theorem hintShape_extend {s s' : Builder} {d : Nat} {ins : List Nat}
    {out : Nat} (hg : HintShape s d ins out)
    (hn : s'.nodes = s.nodes ++ ms) : HintShape s' d ins out := by
  have hlen : s.nodes.length ≤ s'.nodes.length := by
    rw [hn]; simp
  have heq : ∀ j, j < s.nodes.length → nodeAt s' j = nodeAt s j := by
    intro j hj
    show nodeAt0 s'.nodes j = nodeAt0 s.nodes j
    rw [hn]
    exact nodeAt0_append_lt _ _ _ hj
  refine ⟨?_, by have := hg.out_lt; omega, ?_,
    by rw [heq _ hg.out_lt]; exact hg.out_depth,
    by rw [heq _ hg.out_lt]; exact hg.out_parents,
    by rw [heq _ hg.out_lt]; exact hg.out_deriv⟩
  · intro i hi
    have := hg.ins_lt i hi
    omega
  · rw [← hg.depth_eq]
    apply congrArg
    apply List.map_congr_left
    intro i hi
    exact congrArg RawNode.depth (heq i (hg.ins_lt i hi))

theorem gateShape_update_value {s s' : Builder} {d left right out : Nat}
    {k : Derivation} (hg : GateShape s d left right out k)
    {i : Nat} {v : Option Nat}
    (hn : s'.nodes = updateValue s.nodes i v) :
    GateShape s' d left right out k := by
  have hlen : s'.nodes.length = s.nodes.length := by
    rw [hn]; exact updateValue_length _ _ _
  have hdepth : ∀ j, (nodeAt s' j).depth = (nodeAt s j).depth := by
    intro j
    show (nodeAt0 s'.nodes j).depth = (nodeAt0 s.nodes j).depth
    rw [hn]
    rcases eq_or_ne i j with rfl | hne
    · rcases Nat.lt_or_ge i s.nodes.length with hlt | hge
      · rw [nodeAt0_updateValue_self _ _ _ hlt]
      · rw [updateValue, listModify_oob _ _ _ hge]
    · rw [nodeAt0_updateValue_ne _ _ _ _ hne]
  have hpar : ∀ j, (nodeAt s' j).parents = (nodeAt s j).parents := by
    intro j
    show (nodeAt0 s'.nodes j).parents = (nodeAt0 s.nodes j).parents
    rw [hn]
    rcases eq_or_ne i j with rfl | hne
    · rcases Nat.lt_or_ge i s.nodes.length with hlt | hge
      · rw [nodeAt0_updateValue_self _ _ _ hlt]
      · rw [updateValue, listModify_oob _ _ _ hge]
    · rw [nodeAt0_updateValue_ne _ _ _ _ hne]
  have hder : ∀ j, (nodeAt s' j).derivation = (nodeAt s j).derivation := by
    intro j
    show (nodeAt0 s'.nodes j).derivation = (nodeAt0 s.nodes j).derivation
    rw [hn]
    rcases eq_or_ne i j with rfl | hne
    · rcases Nat.lt_or_ge i s.nodes.length with hlt | hge
      · rw [nodeAt0_updateValue_self _ _ _ hlt]
      · rw [updateValue, listModify_oob _ _ _ hge]
    · rw [nodeAt0_updateValue_ne _ _ _ _ hne]
  exact ⟨by rw [hlen]; exact hg.left_lt, by rw [hlen]; exact hg.right_lt,
    by rw [hlen]; exact hg.out_lt,
    by rw [hdepth, hdepth]; exact hg.depth_eq,
    by rw [hdepth]; exact hg.out_depth,
    by rw [hpar]; exact hg.out_parents,
    by rw [hder]; exact hg.out_deriv⟩

theorem hintShape_update_value {s s' : Builder} {d : Nat} {ins : List Nat}
    {out : Nat} (hg : HintShape s d ins out) {i : Nat} {v : Option Nat}
    (hn : s'.nodes = updateValue s.nodes i v) : HintShape s' d ins out := by
  have hlen : s'.nodes.length = s.nodes.length := by
    rw [hn]; exact updateValue_length _ _ _
  have hdepth : ∀ j, (nodeAt s' j).depth = (nodeAt s j).depth := by
    intro j
    show (nodeAt0 s'.nodes j).depth = (nodeAt0 s.nodes j).depth
    rw [hn]
    rcases eq_or_ne i j with rfl | hne
    · rcases Nat.lt_or_ge i s.nodes.length with hlt | hge
      · rw [nodeAt0_updateValue_self _ _ _ hlt]
      · rw [updateValue, listModify_oob _ _ _ hge]
    · rw [nodeAt0_updateValue_ne _ _ _ _ hne]
  have hpar : ∀ j, (nodeAt s' j).parents = (nodeAt s j).parents := by
    intro j
    show (nodeAt0 s'.nodes j).parents = (nodeAt0 s.nodes j).parents
    rw [hn]
    rcases eq_or_ne i j with rfl | hne
    · rcases Nat.lt_or_ge i s.nodes.length with hlt | hge
      · rw [nodeAt0_updateValue_self _ _ _ hlt]
      · rw [updateValue, listModify_oob _ _ _ hge]
    · rw [nodeAt0_updateValue_ne _ _ _ _ hne]
  have hder : ∀ j, (nodeAt s' j).derivation = (nodeAt s j).derivation := by
    intro j
    show (nodeAt0 s'.nodes j).derivation = (nodeAt0 s.nodes j).derivation
    rw [hn]
    rcases eq_or_ne i j with rfl | hne
    · rcases Nat.lt_or_ge i s.nodes.length with hlt | hge
      · rw [nodeAt0_updateValue_self _ _ _ hlt]
      · rw [updateValue, listModify_oob _ _ _ hge]
    · rw [nodeAt0_updateValue_ne _ _ _ _ hne]
  refine ⟨fun i hi => by rw [hlen]; exact hg.ins_lt i hi,
    by rw [hlen]; exact hg.out_lt, ?_,
    by rw [hdepth]; exact hg.out_depth,
    by rw [hpar]; exact hg.out_parents,
    by rw [hder]; exact hg.out_deriv⟩
  rw [← hg.depth_eq]
  apply congrArg
  apply List.map_congr_left
  intro i hi
  exact hdepth i

/-! ### Invariant preservation -/

theorem inv_new : Inv Builder.new := by
  constructor <;> simp [Builder.new, levelAt]

theorem inv_append_base (s : Builder) (hs : Inv s) (ms : List RawNode)
    (hid : ∀ k, k < ms.length → (nodeAt0 ms k).id = s.nodes.length + k)
    (hshape : ∀ n ∈ ms,
      (n.derivation = Derivation.Input ∨ n.derivation = Derivation.Const) ∧
      n.depth = 0 ∧ n.parents = []) :
    Inv { s with nodes := s.nodes ++ ms, next_id := s.next_id + ms.length } := by
  have hnodes : (Builder.mk (s.nodes ++ ms) s.gates s.assertions
      (s.next_id + ms.length)).nodes = s.nodes ++ ms := rfl
  constructor
  · show s.next_id + ms.length = (s.nodes ++ ms).length
    rw [hs.next_id_eq]
    simp
  · intro i hi
    simp only [List.length_append] at hi
    show (nodeAt0 (s.nodes ++ ms) i).id = i
    rcases Nat.lt_or_ge i s.nodes.length with hlt | hge
    · rw [nodeAt0_append_lt _ _ _ hlt]
      exact hs.id_eq i hlt
    · rw [nodeAt0_append_right _ _ _ hge]
      rw [hid (i - s.nodes.length) (by omega)]
      omega
  · intro n hn hder
    rcases List.mem_append.mp hn with h | h
    · exact hs.base_shape n h hder
    · exact (hshape n h).2
  · intro n hn hder
    rcases List.mem_append.mp hn with h | h
    · exact hs.derived_pos n h hder
    · rcases (hshape n h).1 with h1 | h1 <;>
        rcases hder with h2 | h2 | h2 <;> simp [h1] at h2
  · intro n hn
    rcases List.mem_append.mp hn with h | h
    · exact hs.depth_le n h
    · show n.depth ≤ s.gates.length
      rw [(hshape n h).2.1]
      omega
  · intro d hd g hg
    exact gateShape_extend (hs.add_shape d hd g hg) hnodes
  · intro d hd g hg
    exact gateShape_extend (hs.mul_shape d hd g hg) hnodes
  · intro d hd g hg
    exact hintShape_extend (hs.hint_shape d hd g hg) hnodes
  · exact hs.add_sorted
  · exact hs.mul_sorted
  · exact hs.hint_sorted
  · intro a hA
    have := hs.assert_lt a hA
    simp only [List.length_append]
    omega

theorem inv_init (s : Builder) (hs : Inv s) : Inv (s.init).2 := by
  have h := inv_append_base s hs
    [⟨none, 0, s.next_id, [], Derivation.Input⟩]
    (by
      intro k hk
      simp only [List.length_singleton, Nat.lt_one_iff] at hk
      subst hk
      show s.next_id = s.nodes.length + 0
      rw [hs.next_id_eq, Nat.add_zero])
    (by
      intro n hn
      rcases List.mem_singleton.mp hn with rfl
      exact ⟨Or.inl rfl, rfl, rfl⟩)
  exact h

theorem inv_batch_init (s : Builder) (hs : Inv s) (n : Nat) :
    Inv (s.batch_init n).2 := by
  have h := inv_append_base s hs
    ((List.range n).map
      (fun i => ⟨none, 0, s.next_id + i, [], Derivation.Input⟩))
    (by
      intro k hk
      simp only [List.length_map, List.length_range] at hk
      rw [show nodeAt0 ((List.range n).map
          (fun i => (⟨none, 0, s.next_id + i, [], Derivation.Input⟩ :
            RawNode))) k
        = ⟨none, 0, s.next_id + k, [], Derivation.Input⟩ from
        getD_map_range n k _ dfltNode hk]
      show s.next_id + k = s.nodes.length + k
      rw [hs.next_id_eq])
    (by
      intro m hm
      rcases List.mem_map.mp hm with ⟨i, _, rfl⟩
      exact ⟨Or.inl rfl, rfl, rfl⟩)
  simpa [Builder.batch_init] using h

theorem inv_constant (s : Builder) (hs : Inv s) (v : Nat) :
    Inv (s.constant v).2 := by
  have h := inv_append_base s hs
    [⟨some v, 0, s.next_id, [], Derivation.Const⟩]
    (by
      intro k hk
      simp only [List.length_singleton, Nat.lt_one_iff] at hk
      subst hk
      show s.next_id = s.nodes.length + 0
      rw [hs.next_id_eq, Nat.add_zero])
    (by
      intro n hn
      rcases List.mem_singleton.mp hn with rfl
      exact ⟨Or.inr rfl, rfl, rfl⟩)
  exact h

theorem inv_batch_constant (s : Builder) (hs : Inv s) (vs : List Nat) :
    Inv (s.batch_constant vs).2 := by
  have h := inv_append_base s hs
    ((List.range vs.length).map
      (fun i => ⟨some (vs.getD i 0), 0, s.next_id + i, [],
        Derivation.Const⟩))
    (by
      intro k hk
      simp only [List.length_map, List.length_range] at hk
      rw [show nodeAt0 ((List.range vs.length).map
          (fun i => (⟨some (vs.getD i 0), 0, s.next_id + i, [],
            Derivation.Const⟩ : RawNode))) k
        = ⟨some (vs.getD k 0), 0, s.next_id + k, [], Derivation.Const⟩ from
        getD_map_range vs.length k _ dfltNode hk]
      show s.next_id + k = s.nodes.length + k
      rw [hs.next_id_eq])
    (by
      intro m hm
      rcases List.mem_map.mp hm with ⟨i, _, rfl⟩
      exact ⟨Or.inr rfl, rfl, rfl⟩)
  simpa [Builder.batch_constant] using h

theorem inv_update_value (s : Builder) (hs : Inv s) (i : Nat)
    (v : Option Nat) : Inv { s with nodes := updateValue s.nodes i v } := by
  have hnodes : ({ s with nodes := updateValue s.nodes i v } : Builder).nodes
      = updateValue s.nodes i v := rfl
  have hmem : ∀ n ∈ updateValue s.nodes i v,
      n ∈ s.nodes ∨ ∃ m ∈ s.nodes, n = { m with value := v } :=
    mem_listModify s.nodes i _
  constructor
  · show s.next_id = (updateValue s.nodes i v).length
    rw [updateValue_length]
    exact hs.next_id_eq
  · intro j hj
    rw [updateValue_length] at hj
    show (nodeAt0 (updateValue s.nodes i v) j).id = j
    rcases eq_or_ne i j with rfl | hne
    · rw [nodeAt0_updateValue_self _ _ _ hj]
      exact hs.id_eq i hj
    · rw [nodeAt0_updateValue_ne _ _ _ _ hne]
      exact hs.id_eq j hj
  · intro n hn hder
    rcases hmem n hn with h | ⟨m, hm, rfl⟩
    · exact hs.base_shape n h hder
    · exact hs.base_shape m hm hder
  · intro n hn hder
    rcases hmem n hn with h | ⟨m, hm, rfl⟩
    · exact hs.derived_pos n h hder
    · exact hs.derived_pos m hm hder
  · intro n hn
    rcases hmem n hn with h | ⟨m, hm, rfl⟩
    · exact hs.depth_le n h
    · exact hs.depth_le m hm
  · intro d hd g hg
    exact gateShape_update_value (hs.add_shape d hd g hg) hnodes
  · intro d hd g hg
    exact gateShape_update_value (hs.mul_shape d hd g hg) hnodes
  · intro d hd g hg
    exact hintShape_update_value (hs.hint_shape d hd g hg) hnodes
  · exact hs.add_sorted
  · exact hs.mul_sorted
  · exact hs.hint_sorted
  · intro a hA
    have := hs.assert_lt a hA
    rw [updateValue_length]
    exact this

theorem inv_set (s : Builder) (hs : Inv s) (i v : Nat) :
    Inv (s.set i v) := by
  rw [Builder.set]
  split
  · exact inv_update_value s hs i (some v)
  · exact hs

theorem inv_batch_set (s : Builder) (hs : Inv s) (idxs vs : List Nat) :
    Inv (s.batch_set idxs vs) := by
  rw [Builder.batch_set]
  generalize idxs.zip vs = l
  induction l generalizing s with
  | nil => exact hs
  | cons x xs ih => exact ih _ (inv_set s hs x.1 x.2)

theorem inv_assert_equal (s : Builder) (hs : Inv s) (a b : Nat)
    (ha : a < s.nodes.length) (hb : b < s.nodes.length) :
    Inv (s.assert_equal a b) := by
  have hnodes : (s.assert_equal a b).nodes = s.nodes ++ [] := by
    simp [Builder.assert_equal]
  constructor
  · exact hs.next_id_eq
  · exact hs.id_eq
  · exact hs.base_shape
  · exact hs.derived_pos
  · exact hs.depth_le
  · intro d hd g hg
    exact gateShape_extend (hs.add_shape d hd g hg) hnodes
  · intro d hd g hg
    exact gateShape_extend (hs.mul_shape d hd g hg) hnodes
  · intro d hd g hg
    exact hintShape_extend (hs.hint_shape d hd g hg) hnodes
  · exact hs.add_sorted
  · exact hs.mul_sorted
  · exact hs.hint_sorted
  · intro x hx
    rcases List.mem_append.mp hx with h | h
    · exact hs.assert_lt x h
    · rcases List.mem_singleton.mp h with rfl
      constructor
      · show (nodeAt s a).id < s.nodes.length
        rw [hs.id_eq a ha]
        exact ha
      · show (nodeAt s b).id < s.nodes.length
        rw [hs.id_eq b hb]
        exact hb

theorem inv_batch_assert_equal (s : Builder) (hs : Inv s)
    (ls rs : List Nat) (hl : ∀ i ∈ ls, i < s.nodes.length)
    (hr : ∀ i ∈ rs, i < s.nodes.length) :
    Inv (s.batch_assert_equal ls rs) := by
  have hnodes : (s.batch_assert_equal ls rs).nodes = s.nodes ++ [] := by
    simp [Builder.batch_assert_equal]
  constructor
  · exact hs.next_id_eq
  · exact hs.id_eq
  · exact hs.base_shape
  · exact hs.derived_pos
  · exact hs.depth_le
  · intro d hd g hg
    exact gateShape_extend (hs.add_shape d hd g hg) hnodes
  · intro d hd g hg
    exact gateShape_extend (hs.mul_shape d hd g hg) hnodes
  · intro d hd g hg
    exact hintShape_extend (hs.hint_shape d hd g hg) hnodes
  · exact hs.add_sorted
  · exact hs.mul_sorted
  · exact hs.hint_sorted
  · intro x hx
    rcases List.mem_append.mp hx with h | h
    · exact hs.assert_lt x h
    · rcases List.mem_map.mp h with ⟨ab, hab, rfl⟩
      have h1 := (List.of_mem_zip hab).1
      have h2 := (List.of_mem_zip hab).2
      constructor
      · show (nodeAt s ab.1).id < s.nodes.length
        rw [hs.id_eq _ (hl _ h1)]
        exact hl _ h1
      · show (nodeAt s ab.2).id < s.nodes.length
        rw [hs.id_eq _ (hr _ h2)]
        exact hr _ h2

/-! ### Bucket update lemmas shared by add, mul and hint -/

theorem gatesExt_len (gates : List LevelGates) (D : Nat)
    (f : LevelGates → LevelGates) :
    (listModify (if gates.length ≤ D then gates ++ [emptyLevel] else gates)
        D f).length
      = if gates.length ≤ D then gates.length + 1 else gates.length := by
  rw [listModify_length]
  split <;> simp

theorem gatesExt_getD_ne (gates : List LevelGates) (D : Nat)
    (f : LevelGates → LevelGates) (hD : D ≤ gates.length) (d : Nat)
    (hne : d ≠ D)
    (hd : d < (listModify
      (if gates.length ≤ D then gates ++ [emptyLevel] else gates) D f).length) :
    d < gates.length ∧
    (listModify (if gates.length ≤ D then gates ++ [emptyLevel] else gates)
        D f).getD d emptyLevel = gates.getD d emptyLevel := by
  rw [gatesExt_len] at hd
  rw [getD_listModify_ne _ _ _ _ _ (fun h => hne h.symm)]
  by_cases hc : gates.length ≤ D
  · rw [if_pos hc] at hd ⊢
    have hdlt : d < gates.length := by omega
    exact ⟨hdlt, List.getD_append _ _ _ _ hdlt⟩
  · rw [if_neg hc] at hd ⊢
    exact ⟨hd, rfl⟩

theorem gatesExt_getD_self (gates : List LevelGates) (D : Nat)
    (f : LevelGates → LevelGates) (hD : D ≤ gates.length) :
    (listModify (if gates.length ≤ D then gates ++ [emptyLevel] else gates)
        D f).getD D emptyLevel
      = f (gates.getD D emptyLevel) := by
  by_cases hc : gates.length ≤ D
  · have hDeq : D = gates.length := by omega
    subst hDeq
    rw [if_pos hc]
    rw [getD_listModify_self _ _ _ _
      (by simp only [List.length_append, List.length_singleton]; omega)]
    rw [List.getD_append_right _ _ _ _ (le_refl _), Nat.sub_self]
    rw [List.getD_eq_default gates _ (le_refl _)]
    rfl
  · rw [if_neg hc]
    rw [getD_listModify_self _ _ _ _ (by omega)]

theorem foldr_max_le (l : List Nat) (m : Nat) (h : ∀ x ∈ l, x ≤ m) :
    l.foldr max 0 ≤ m := by
  induction l with
  | nil => simp
  | cons x xs ih =>
    simp only [List.foldr_cons]
    have h1 := h x (List.mem_cons_self x xs)
    have h2 := ih (fun y hy => h y (List.mem_cons_of_mem x hy))
    omega

/-! ### Invariant preservation of `Builder.add` -/

theorem inv_add (s : Builder) (hs : Inv s) (a b : Nat)
    (ha : a < s.nodes.length) (hb : b < s.nodes.length) :
    Inv (s.add a b).2 := by
  have hia : (nodeAt s a).id = a := hs.id_eq a ha
  have hib : (nodeAt s b).id = b := hs.id_eq b hb
  have hDle : max (nodeAt s a).depth (nodeAt s b).depth ≤ s.gates.length := by
    have h1 := hs.depth_le _ (nodeAt_mem s a ha)
    have h2 := hs.depth_le _ (nodeAt_mem s b hb)
    omega
  set D := max (nodeAt s a).depth (nodeAt s b).depth with hDdef
  set out : RawNode := ⟨none, D + 1, s.next_id,
    [(nodeAt s a).id, (nodeAt s b).id], Derivation.Add⟩ with houtdef
  set newg : AddGate := ⟨(nodeAt s a).id, (nodeAt s b).id, s.next_id⟩
    with hnewgdef
  set f : LevelGates → LevelGates :=
    fun lg => { lg with adder_gates := lg.adder_gates ++ [newg] } with hfdef
  set g2 := listModify
    (if s.gates.length ≤ D then s.gates ++ [emptyLevel] else s.gates) D f
    with hg2def
  have heq : (s.add a b).2 =
      Builder.mk (s.nodes ++ [out]) g2 s.assertions (s.next_id + 1) := rfl
  rw [heq]
  have hnodes' : (Builder.mk (s.nodes ++ [out]) g2 s.assertions
      (s.next_id + 1)).nodes = s.nodes ++ [out] := rfl
  have hg2len : g2.length
      = if s.gates.length ≤ D then s.gates.length + 1 else s.gates.length := by
    rw [hg2def]
    exact gatesExt_len s.gates D f
  have hglb : s.gates.length ≤ g2.length ∧ D < g2.length := by
    rw [hg2len]
    split <;> omega
  have hnextid : s.next_id = s.nodes.length := hs.next_id_eq
  have hnodeAt_old : ∀ j, j < s.nodes.length →
      nodeAt (Builder.mk (s.nodes ++ [out]) g2 s.assertions
        (s.next_id + 1)) j = nodeAt s j := by
    intro j hj
    exact nodeAt0_append_lt _ _ _ hj
  have hnodeAt_new :
      nodeAt (Builder.mk (s.nodes ++ [out]) g2 s.assertions
        (s.next_id + 1)) s.next_id = out := by
    show nodeAt0 (s.nodes ++ [out]) s.next_id = out
    rw [hnextid, nodeAt0_append_right _ _ _ (le_refl _)]
    simp [nodeAt0]
  have hlevel_ne : ∀ d, d ≠ D → d < g2.length →
      d < s.gates.length ∧ g2.getD d emptyLevel = levelAt s d := by
    intro d hne hd
    rw [hg2def] at hd ⊢
    exact gatesExt_getD_ne s.gates D f hDle d hne hd
  have hlevel_D : g2.getD D emptyLevel = f (levelAt s D) := by
    rw [hg2def]
    exact gatesExt_getD_self s.gates D f hDle
  have hlevel_D_empty : s.gates.length ≤ D → levelAt s D = emptyLevel := by
    intro hge
    exact List.getD_eq_default _ _ hge
  constructor
  · show s.next_id + 1 = (s.nodes ++ [out]).length
    rw [hnextid]
    simp
  · intro i hi
    simp only [List.length_append, List.length_singleton] at hi
    show (nodeAt0 (s.nodes ++ [out]) i).id = i
    rcases Nat.lt_or_ge i s.nodes.length with hlt | hge
    · rw [nodeAt0_append_lt _ _ _ hlt]
      exact hs.id_eq i hlt
    · have hieq : i = s.nodes.length := by omega
      rw [nodeAt0_append_right _ _ _ hge, hieq]
      simp [nodeAt0, hnextid]
  · intro n hn hder
    rcases List.mem_append.mp hn with h | h
    · exact hs.base_shape n h hder
    · rcases List.mem_singleton.mp h with rfl
      rcases hder with h2 | h2 <;> simp [houtdef] at h2
  · intro n hn hder
    rcases List.mem_append.mp hn with h | h
    · exact hs.derived_pos n h hder
    · rcases List.mem_singleton.mp h with rfl
      show 1 ≤ D + 1
      omega
  · intro n hn
    rcases List.mem_append.mp hn with h | h
    · have := hs.depth_le n h
      show n.depth ≤ g2.length
      omega
    · rcases List.mem_singleton.mp h with rfl
      show D + 1 ≤ g2.length
      rw [hg2len]
      split <;> omega
  · -- add_shape
    intro d hd g hg
    rcases eq_or_ne d D with rfl | hne
    · rw [show levelAt (Builder.mk (s.nodes ++ [out]) g2 s.assertions
          (s.next_id + 1)) D = f (levelAt s D) from hlevel_D] at hg
      rw [hfdef] at hg
      simp only [List.mem_append, List.mem_singleton] at hg
      rcases hg with hold | rfl
      · rcases Nat.lt_or_ge D s.gates.length with hdlt | hdge
        · exact gateShape_extend (hs.add_shape D hdlt g hold) hnodes'
        · rw [hlevel_D_empty hdge] at hold
          simp [emptyLevel] at hold
      · refine ⟨?_, ?_, ?_, ?_, ?_, ?_, ?_⟩
        · show (nodeAt s a).id < (s.nodes ++ [out]).length
          rw [hia]
          simp only [List.length_append, List.length_singleton]
          omega
        · show (nodeAt s b).id < (s.nodes ++ [out]).length
          rw [hib]
          simp only [List.length_append, List.length_singleton]
          omega
        · show s.next_id < (s.nodes ++ [out]).length
          rw [hnextid]
          simp
        · show max (nodeAt _ (nodeAt s a).id).depth
              (nodeAt _ (nodeAt s b).id).depth = D
          rw [hia, hib, hnodeAt_old a ha, hnodeAt_old b hb]
        · show (nodeAt _ s.next_id).depth = D + 1
          rw [hnodeAt_new]
        · show (nodeAt _ s.next_id).parents = [(nodeAt s a).id, (nodeAt s b).id]
          rw [hnodeAt_new]
        · show (nodeAt _ s.next_id).derivation = Derivation.Add
          rw [hnodeAt_new]
    · obtain ⟨hdlt, hgd⟩ := hlevel_ne d hne hd
      rw [show levelAt (Builder.mk (s.nodes ++ [out]) g2 s.assertions
          (s.next_id + 1)) d = levelAt s d from hgd] at hg
      exact gateShape_extend (hs.add_shape d hdlt g hg) hnodes'
  · -- mul_shape
    intro d hd g hg
    rcases eq_or_ne d D with rfl | hne
    · rw [show levelAt (Builder.mk (s.nodes ++ [out]) g2 s.assertions
          (s.next_id + 1)) D = f (levelAt s D) from hlevel_D] at hg
      rw [hfdef] at hg
      simp only at hg
      rcases Nat.lt_or_ge D s.gates.length with hdlt | hdge
      · exact gateShape_extend (hs.mul_shape D hdlt g hg) hnodes'
      · rw [hlevel_D_empty hdge] at hg
        simp [emptyLevel] at hg
    · obtain ⟨hdlt, hgd⟩ := hlevel_ne d hne hd
      rw [show levelAt (Builder.mk (s.nodes ++ [out]) g2 s.assertions
          (s.next_id + 1)) d = levelAt s d from hgd] at hg
      exact gateShape_extend (hs.mul_shape d hdlt g hg) hnodes'
  · -- hint_shape
    intro d hd g hg
    rcases eq_or_ne d D with rfl | hne
    · rw [show levelAt (Builder.mk (s.nodes ++ [out]) g2 s.assertions
          (s.next_id + 1)) D = f (levelAt s D) from hlevel_D] at hg
      rw [hfdef] at hg
      simp only at hg
      rcases Nat.lt_or_ge D s.gates.length with hdlt | hdge
      · exact hintShape_extend (hs.hint_shape D hdlt g hg) hnodes'
      · rw [hlevel_D_empty hdge] at hg
        simp [emptyLevel] at hg
    · obtain ⟨hdlt, hgd⟩ := hlevel_ne d hne hd
      rw [show levelAt (Builder.mk (s.nodes ++ [out]) g2 s.assertions
          (s.next_id + 1)) d = levelAt s d from hgd] at hg
      exact hintShape_extend (hs.hint_shape d hdlt g hg) hnodes'
  · -- add_sorted
    intro d hd
    rcases eq_or_ne d D with rfl | hne
    · rw [show levelAt (Builder.mk (s.nodes ++ [out]) g2 s.assertions
          (s.next_id + 1)) D = f (levelAt s D) from hlevel_D]
      rw [hfdef]
      simp only [List.map_append]
      rw [List.pairwise_append]
      refine ⟨?_, by simp, ?_⟩
      · rcases Nat.lt_or_ge D s.gates.length with hdlt | hdge
        · exact hs.add_sorted D hdlt
        · rw [hlevel_D_empty hdge]
          simp [emptyLevel]
      · intro x hx y hy
        simp only [List.map_singleton, List.mem_singleton] at hy
        subst hy
        rcases List.mem_map.mp hx with ⟨g, hgmem, rfl⟩
        rcases Nat.lt_or_ge D s.gates.length with hdlt | hdge
        · have := (hs.add_shape D hdlt g hgmem).out_lt
          show g.output_id < s.next_id
          omega
        · rw [hlevel_D_empty hdge] at hgmem
          simp [emptyLevel] at hgmem
    · obtain ⟨hdlt, hgd⟩ := hlevel_ne d hne hd
      rw [show levelAt (Builder.mk (s.nodes ++ [out]) g2 s.assertions
          (s.next_id + 1)) d = levelAt s d from hgd]
      exact hs.add_sorted d hdlt
  · -- mul_sorted
    intro d hd
    rcases eq_or_ne d D with rfl | hne
    · rw [show levelAt (Builder.mk (s.nodes ++ [out]) g2 s.assertions
          (s.next_id + 1)) D = f (levelAt s D) from hlevel_D]
      rw [hfdef]
      simp only
      rcases Nat.lt_or_ge D s.gates.length with hdlt | hdge
      · exact hs.mul_sorted D hdlt
      · rw [hlevel_D_empty hdge]
        simp [emptyLevel]
    · obtain ⟨hdlt, hgd⟩ := hlevel_ne d hne hd
      rw [show levelAt (Builder.mk (s.nodes ++ [out]) g2 s.assertions
          (s.next_id + 1)) d = levelAt s d from hgd]
      exact hs.mul_sorted d hdlt
  · -- hint_sorted
    intro d hd
    rcases eq_or_ne d D with rfl | hne
    · rw [show levelAt (Builder.mk (s.nodes ++ [out]) g2 s.assertions
          (s.next_id + 1)) D = f (levelAt s D) from hlevel_D]
      rw [hfdef]
      simp only
      rcases Nat.lt_or_ge D s.gates.length with hdlt | hdge
      · exact hs.hint_sorted D hdlt
      · rw [hlevel_D_empty hdge]
        simp [emptyLevel]
    · obtain ⟨hdlt, hgd⟩ := hlevel_ne d hne hd
      rw [show levelAt (Builder.mk (s.nodes ++ [out]) g2 s.assertions
          (s.next_id + 1)) d = levelAt s d from hgd]
      exact hs.hint_sorted d hdlt
  · intro x hx
    have := hs.assert_lt x hx
    simp only [List.length_append, List.length_singleton]
    omega

/-! ### Invariant preservation of `Builder.mul` -/

theorem inv_mul (s : Builder) (hs : Inv s) (a b : Nat)
    (ha : a < s.nodes.length) (hb : b < s.nodes.length) :
    Inv (s.mul a b).2 := by
  have hia : (nodeAt s a).id = a := hs.id_eq a ha
  have hib : (nodeAt s b).id = b := hs.id_eq b hb
  have hDle : max (nodeAt s a).depth (nodeAt s b).depth ≤ s.gates.length := by
    have h1 := hs.depth_le _ (nodeAt_mem s a ha)
    have h2 := hs.depth_le _ (nodeAt_mem s b hb)
    omega
  set D := max (nodeAt s a).depth (nodeAt s b).depth with hDdef
  set out : RawNode := ⟨none, D + 1, s.next_id,
    [(nodeAt s a).id, (nodeAt s b).id], Derivation.Mul⟩ with houtdef
  set newg : MultiplyGate := ⟨(nodeAt s a).id, (nodeAt s b).id, s.next_id⟩
    with hnewgdef
  set f : LevelGates → LevelGates :=
    fun lg => { lg with multiplier_gates := lg.multiplier_gates ++ [newg] }
    with hfdef
  set g2 := listModify
    (if s.gates.length ≤ D then s.gates ++ [emptyLevel] else s.gates) D f
    with hg2def
  have heq : (s.mul a b).2 =
      Builder.mk (s.nodes ++ [out]) g2 s.assertions (s.next_id + 1) := rfl
  rw [heq]
  have hnodes' : (Builder.mk (s.nodes ++ [out]) g2 s.assertions
      (s.next_id + 1)).nodes = s.nodes ++ [out] := rfl
  have hg2len : g2.length
      = if s.gates.length ≤ D then s.gates.length + 1 else s.gates.length := by
    rw [hg2def]
    exact gatesExt_len s.gates D f
  have hnextid : s.next_id = s.nodes.length := hs.next_id_eq
  have hnodeAt_old : ∀ j, j < s.nodes.length →
      nodeAt (Builder.mk (s.nodes ++ [out]) g2 s.assertions
        (s.next_id + 1)) j = nodeAt s j := by
    intro j hj
    exact nodeAt0_append_lt _ _ _ hj
  have hnodeAt_new :
      nodeAt (Builder.mk (s.nodes ++ [out]) g2 s.assertions
        (s.next_id + 1)) s.next_id = out := by
    show nodeAt0 (s.nodes ++ [out]) s.next_id = out
    rw [hnextid, nodeAt0_append_right _ _ _ (le_refl _)]
    simp [nodeAt0]
  have hlevel_ne : ∀ d, d ≠ D → d < g2.length →
      d < s.gates.length ∧ g2.getD d emptyLevel = levelAt s d := by
    intro d hne hd
    rw [hg2def] at hd ⊢
    exact gatesExt_getD_ne s.gates D f hDle d hne hd
  have hlevel_D : g2.getD D emptyLevel = f (levelAt s D) := by
    rw [hg2def]
    exact gatesExt_getD_self s.gates D f hDle
  have hlevel_D_empty : s.gates.length ≤ D → levelAt s D = emptyLevel := by
    intro hge
    exact List.getD_eq_default _ _ hge
  constructor
  · show s.next_id + 1 = (s.nodes ++ [out]).length
    rw [hnextid]
    simp
  · intro i hi
    simp only [List.length_append, List.length_singleton] at hi
    show (nodeAt0 (s.nodes ++ [out]) i).id = i
    rcases Nat.lt_or_ge i s.nodes.length with hlt | hge
    · rw [nodeAt0_append_lt _ _ _ hlt]
      exact hs.id_eq i hlt
    · have hieq : i = s.nodes.length := by omega
      rw [nodeAt0_append_right _ _ _ hge, hieq]
      simp [nodeAt0, hnextid]
  · intro n hn hder
    rcases List.mem_append.mp hn with h | h
    · exact hs.base_shape n h hder
    · rcases List.mem_singleton.mp h with rfl
      rcases hder with h2 | h2 <;> simp [houtdef] at h2
  · intro n hn hder
    rcases List.mem_append.mp hn with h | h
    · exact hs.derived_pos n h hder
    · rcases List.mem_singleton.mp h with rfl
      show 1 ≤ D + 1
      omega
  · intro n hn
    rcases List.mem_append.mp hn with h | h
    · have := hs.depth_le n h
      show n.depth ≤ g2.length
      rw [hg2len]
      split <;> omega
    · rcases List.mem_singleton.mp h with rfl
      show D + 1 ≤ g2.length
      rw [hg2len]
      split <;> omega
  · -- add gates keep their shape
    intro d hd g hg
    rcases eq_or_ne d D with rfl | hne
    · rw [show levelAt (Builder.mk (s.nodes ++ [out]) g2 s.assertions
          (s.next_id + 1)) D = f (levelAt s D) from hlevel_D] at hg
      rw [hfdef] at hg
      simp only at hg
      rcases Nat.lt_or_ge D s.gates.length with hdlt | hdge
      · exact gateShape_extend (hs.add_shape D hdlt g hg) hnodes'
      · rw [hlevel_D_empty hdge] at hg
        simp [emptyLevel] at hg
    · obtain ⟨hdlt, hgd⟩ := hlevel_ne d hne hd
      rw [show levelAt (Builder.mk (s.nodes ++ [out]) g2 s.assertions
          (s.next_id + 1)) d = levelAt s d from hgd] at hg
      exact gateShape_extend (hs.add_shape d hdlt g hg) hnodes'
  · -- the new multiply gate
    intro d hd g hg
    rcases eq_or_ne d D with rfl | hne
    · rw [show levelAt (Builder.mk (s.nodes ++ [out]) g2 s.assertions
          (s.next_id + 1)) D = f (levelAt s D) from hlevel_D] at hg
      rw [hfdef] at hg
      simp only [List.mem_append, List.mem_singleton] at hg
      rcases hg with hold | rfl
      · rcases Nat.lt_or_ge D s.gates.length with hdlt | hdge
        · exact gateShape_extend (hs.mul_shape D hdlt g hold) hnodes'
        · rw [hlevel_D_empty hdge] at hold
          simp [emptyLevel] at hold
      · refine ⟨?_, ?_, ?_, ?_, ?_, ?_, ?_⟩
        · show (nodeAt s a).id < (s.nodes ++ [out]).length
          rw [hia]
          simp only [List.length_append, List.length_singleton]
          omega
        · show (nodeAt s b).id < (s.nodes ++ [out]).length
          rw [hib]
          simp only [List.length_append, List.length_singleton]
          omega
        · show s.next_id < (s.nodes ++ [out]).length
          rw [hnextid]
          simp
        · show max (nodeAt _ (nodeAt s a).id).depth
              (nodeAt _ (nodeAt s b).id).depth = D
          rw [hia, hib, hnodeAt_old a ha, hnodeAt_old b hb]
        · show (nodeAt _ s.next_id).depth = D + 1
          rw [hnodeAt_new]
        · show (nodeAt _ s.next_id).parents = [(nodeAt s a).id, (nodeAt s b).id]
          rw [hnodeAt_new]
        · show (nodeAt _ s.next_id).derivation = Derivation.Mul
          rw [hnodeAt_new]
    · obtain ⟨hdlt, hgd⟩ := hlevel_ne d hne hd
      rw [show levelAt (Builder.mk (s.nodes ++ [out]) g2 s.assertions
          (s.next_id + 1)) d = levelAt s d from hgd] at hg
      exact gateShape_extend (hs.mul_shape d hdlt g hg) hnodes'
  · -- hint gates keep their shape
    intro d hd g hg
    rcases eq_or_ne d D with rfl | hne
    · rw [show levelAt (Builder.mk (s.nodes ++ [out]) g2 s.assertions
          (s.next_id + 1)) D = f (levelAt s D) from hlevel_D] at hg
      rw [hfdef] at hg
      simp only at hg
      rcases Nat.lt_or_ge D s.gates.length with hdlt | hdge
      · exact hintShape_extend (hs.hint_shape D hdlt g hg) hnodes'
      · rw [hlevel_D_empty hdge] at hg
        simp [emptyLevel] at hg
    · obtain ⟨hdlt, hgd⟩ := hlevel_ne d hne hd
      rw [show levelAt (Builder.mk (s.nodes ++ [out]) g2 s.assertions
          (s.next_id + 1)) d = levelAt s d from hgd] at hg
      exact hintShape_extend (hs.hint_shape d hdlt g hg) hnodes'
  · -- add_sorted
    intro d hd
    rcases eq_or_ne d D with rfl | hne
    · rw [show levelAt (Builder.mk (s.nodes ++ [out]) g2 s.assertions
          (s.next_id + 1)) D = f (levelAt s D) from hlevel_D]
      rw [hfdef]
      simp only
      rcases Nat.lt_or_ge D s.gates.length with hdlt | hdge
      · exact hs.add_sorted D hdlt
      · rw [hlevel_D_empty hdge]
        simp [emptyLevel]
    · obtain ⟨hdlt, hgd⟩ := hlevel_ne d hne hd
      rw [show levelAt (Builder.mk (s.nodes ++ [out]) g2 s.assertions
          (s.next_id + 1)) d = levelAt s d from hgd]
      exact hs.add_sorted d hdlt
  · -- mul_sorted with the appended gate
    intro d hd
    rcases eq_or_ne d D with rfl | hne
    · rw [show levelAt (Builder.mk (s.nodes ++ [out]) g2 s.assertions
          (s.next_id + 1)) D = f (levelAt s D) from hlevel_D]
      rw [hfdef]
      simp only [List.map_append]
      rw [List.pairwise_append]
      refine ⟨?_, by simp, ?_⟩
      · rcases Nat.lt_or_ge D s.gates.length with hdlt | hdge
        · exact hs.mul_sorted D hdlt
        · rw [hlevel_D_empty hdge]
          simp [emptyLevel]
      · intro x hx y hy
        simp only [List.map_singleton, List.mem_singleton] at hy
        subst hy
        rcases List.mem_map.mp hx with ⟨g, hgmem, rfl⟩
        rcases Nat.lt_or_ge D s.gates.length with hdlt | hdge
        · have := (hs.mul_shape D hdlt g hgmem).out_lt
          show g.output_id < s.next_id
          omega
        · rw [hlevel_D_empty hdge] at hgmem
          simp [emptyLevel] at hgmem
    · obtain ⟨hdlt, hgd⟩ := hlevel_ne d hne hd
      rw [show levelAt (Builder.mk (s.nodes ++ [out]) g2 s.assertions
          (s.next_id + 1)) d = levelAt s d from hgd]
      exact hs.mul_sorted d hdlt
  · -- hint_sorted
    intro d hd
    rcases eq_or_ne d D with rfl | hne
    · rw [show levelAt (Builder.mk (s.nodes ++ [out]) g2 s.assertions
          (s.next_id + 1)) D = f (levelAt s D) from hlevel_D]
      rw [hfdef]
      simp only
      rcases Nat.lt_or_ge D s.gates.length with hdlt | hdge
      · exact hs.hint_sorted D hdlt
      · rw [hlevel_D_empty hdge]
        simp [emptyLevel]
    · obtain ⟨hdlt, hgd⟩ := hlevel_ne d hne hd
      rw [show levelAt (Builder.mk (s.nodes ++ [out]) g2 s.assertions
          (s.next_id + 1)) d = levelAt s d from hgd]
      exact hs.hint_sorted d hdlt
  · intro x hx
    have := hs.assert_lt x hx
    simp only [List.length_append, List.length_singleton]
    omega

/-! ### Invariant preservation of `Builder.hint` -/

theorem inv_hint (s : Builder) (hs : Inv s) (args : List Nat)
    (lam : List Nat → Nat) (hargs : ∀ i ∈ args, i < s.nodes.length) :
    Inv (s.hint args lam).2 := by
  have hmapid : args.map (fun i => (nodeAt s i).id) = args := by
    have h1 : args.map (fun i => (nodeAt s i).id)
        = args.map (fun i => i) :=
      List.map_congr_left (fun i hi => hs.id_eq i (hargs i hi))
    rw [h1]
    exact List.map_id' args
  have hDle : (args.map (fun i => (nodeAt s i).depth)).foldr max 0
      ≤ s.gates.length := by
    apply foldr_max_le
    intro x hx
    rcases List.mem_map.mp hx with ⟨i, hi, rfl⟩
    exact hs.depth_le _ (nodeAt_mem s i (hargs i hi))
  set D := (args.map (fun i => (nodeAt s i).depth)).foldr max 0 with hDdef
  set out : RawNode := ⟨none, D + 1, s.next_id,
    args.map (fun i => (nodeAt s i).id), Derivation.Hint⟩ with houtdef
  set newg : LambdaGate :=
    ⟨args.map (fun i => (nodeAt s i).id), s.next_id, lam⟩ with hnewgdef
  set f : LevelGates → LevelGates :=
    fun lg => { lg with lambda_gates := lg.lambda_gates ++ [newg] }
    with hfdef
  set g2 := listModify
    (if s.gates.length ≤ D then s.gates ++ [emptyLevel] else s.gates) D f
    with hg2def
  have heq : (s.hint args lam).2 =
      Builder.mk (s.nodes ++ [out]) g2 s.assertions (s.next_id + 1) := rfl
  rw [heq]
  have hnodes' : (Builder.mk (s.nodes ++ [out]) g2 s.assertions
      (s.next_id + 1)).nodes = s.nodes ++ [out] := rfl
  have hg2len : g2.length
      = if s.gates.length ≤ D then s.gates.length + 1 else s.gates.length := by
    rw [hg2def]
    exact gatesExt_len s.gates D f
  have hnextid : s.next_id = s.nodes.length := hs.next_id_eq
  have hnodeAt_old : ∀ j, j < s.nodes.length →
      nodeAt (Builder.mk (s.nodes ++ [out]) g2 s.assertions
        (s.next_id + 1)) j = nodeAt s j := by
    intro j hj
    exact nodeAt0_append_lt _ _ _ hj
  have hnodeAt_new :
      nodeAt (Builder.mk (s.nodes ++ [out]) g2 s.assertions
        (s.next_id + 1)) s.next_id = out := by
    show nodeAt0 (s.nodes ++ [out]) s.next_id = out
    rw [hnextid, nodeAt0_append_right _ _ _ (le_refl _)]
    simp [nodeAt0]
  have hlevel_ne : ∀ d, d ≠ D → d < g2.length →
      d < s.gates.length ∧ g2.getD d emptyLevel = levelAt s d := by
    intro d hne hd
    rw [hg2def] at hd ⊢
    exact gatesExt_getD_ne s.gates D f hDle d hne hd
  have hlevel_D : g2.getD D emptyLevel = f (levelAt s D) := by
    rw [hg2def]
    exact gatesExt_getD_self s.gates D f hDle
  have hlevel_D_empty : s.gates.length ≤ D → levelAt s D = emptyLevel := by
    intro hge
    exact List.getD_eq_default _ _ hge
  constructor
  · show s.next_id + 1 = (s.nodes ++ [out]).length
    rw [hnextid]
    simp
  · intro i hi
    simp only [List.length_append, List.length_singleton] at hi
    show (nodeAt0 (s.nodes ++ [out]) i).id = i
    rcases Nat.lt_or_ge i s.nodes.length with hlt | hge
    · rw [nodeAt0_append_lt _ _ _ hlt]
      exact hs.id_eq i hlt
    · have hieq : i = s.nodes.length := by omega
      rw [nodeAt0_append_right _ _ _ hge, hieq]
      simp [nodeAt0, hnextid]
  · intro n hn hder
    rcases List.mem_append.mp hn with h | h
    · exact hs.base_shape n h hder
    · rcases List.mem_singleton.mp h with rfl
      rcases hder with h2 | h2 <;> simp [houtdef] at h2
  · intro n hn hder
    rcases List.mem_append.mp hn with h | h
    · exact hs.derived_pos n h hder
    · rcases List.mem_singleton.mp h with rfl
      show 1 ≤ D + 1
      omega
  · intro n hn
    rcases List.mem_append.mp hn with h | h
    · have := hs.depth_le n h
      show n.depth ≤ g2.length
      rw [hg2len]
      split <;> omega
    · rcases List.mem_singleton.mp h with rfl
      show D + 1 ≤ g2.length
      rw [hg2len]
      split <;> omega
  · -- add gates keep their shape
    intro d hd g hg
    rcases eq_or_ne d D with rfl | hne
    · rw [show levelAt (Builder.mk (s.nodes ++ [out]) g2 s.assertions
          (s.next_id + 1)) D = f (levelAt s D) from hlevel_D] at hg
      rw [hfdef] at hg
      simp only at hg
      rcases Nat.lt_or_ge D s.gates.length with hdlt | hdge
      · exact gateShape_extend (hs.add_shape D hdlt g hg) hnodes'
      · rw [hlevel_D_empty hdge] at hg
        simp [emptyLevel] at hg
    · obtain ⟨hdlt, hgd⟩ := hlevel_ne d hne hd
      rw [show levelAt (Builder.mk (s.nodes ++ [out]) g2 s.assertions
          (s.next_id + 1)) d = levelAt s d from hgd] at hg
      exact gateShape_extend (hs.add_shape d hdlt g hg) hnodes'
  · -- multiply gates keep their shape
    intro d hd g hg
    rcases eq_or_ne d D with rfl | hne
    · rw [show levelAt (Builder.mk (s.nodes ++ [out]) g2 s.assertions
          (s.next_id + 1)) D = f (levelAt s D) from hlevel_D] at hg
      rw [hfdef] at hg
      simp only at hg
      rcases Nat.lt_or_ge D s.gates.length with hdlt | hdge
      · exact gateShape_extend (hs.mul_shape D hdlt g hg) hnodes'
      · rw [hlevel_D_empty hdge] at hg
        simp [emptyLevel] at hg
    · obtain ⟨hdlt, hgd⟩ := hlevel_ne d hne hd
      rw [show levelAt (Builder.mk (s.nodes ++ [out]) g2 s.assertions
          (s.next_id + 1)) d = levelAt s d from hgd] at hg
      exact gateShape_extend (hs.mul_shape d hdlt g hg) hnodes'
  · -- the new lambda gate
    intro d hd g hg
    rcases eq_or_ne d D with rfl | hne
    · rw [show levelAt (Builder.mk (s.nodes ++ [out]) g2 s.assertions
          (s.next_id + 1)) D = f (levelAt s D) from hlevel_D] at hg
      rw [hfdef] at hg
      simp only [List.mem_append, List.mem_singleton] at hg
      rcases hg with hold | rfl
      · rcases Nat.lt_or_ge D s.gates.length with hdlt | hdge
        · exact hintShape_extend (hs.hint_shape D hdlt g hold) hnodes'
        · rw [hlevel_D_empty hdge] at hold
          simp [emptyLevel] at hold
      · refine ⟨?_, ?_, ?_, ?_, ?_, ?_⟩
        · show ∀ i ∈ args.map (fun i => (nodeAt s i).id),
            i < (s.nodes ++ [out]).length
          rw [hmapid]
          intro i hi
          have := hargs i hi
          simp only [List.length_append, List.length_singleton]
          omega
        · show s.next_id < (s.nodes ++ [out]).length
          rw [hnextid]
          simp
        · show ((args.map (fun i => (nodeAt s i).id)).map
            (fun i => (nodeAt _ i).depth)).foldr max 0 = D
          rw [hmapid]
          rw [List.map_congr_left
            (fun i hi => congrArg RawNode.depth (hnodeAt_old i (hargs i hi)))]
        · show (nodeAt _ s.next_id).depth = D + 1
          rw [hnodeAt_new]
        · show (nodeAt _ s.next_id).parents
            = args.map (fun i => (nodeAt s i).id)
          rw [hnodeAt_new]
        · show (nodeAt _ s.next_id).derivation = Derivation.Hint
          rw [hnodeAt_new]
    · obtain ⟨hdlt, hgd⟩ := hlevel_ne d hne hd
      rw [show levelAt (Builder.mk (s.nodes ++ [out]) g2 s.assertions
          (s.next_id + 1)) d = levelAt s d from hgd] at hg
      exact hintShape_extend (hs.hint_shape d hdlt g hg) hnodes'
  · -- add_sorted
    intro d hd
    rcases eq_or_ne d D with rfl | hne
    · rw [show levelAt (Builder.mk (s.nodes ++ [out]) g2 s.assertions
          (s.next_id + 1)) D = f (levelAt s D) from hlevel_D]
      rw [hfdef]
      simp only
      rcases Nat.lt_or_ge D s.gates.length with hdlt | hdge
      · exact hs.add_sorted D hdlt
      · rw [hlevel_D_empty hdge]
        simp [emptyLevel]
    · obtain ⟨hdlt, hgd⟩ := hlevel_ne d hne hd
      rw [show levelAt (Builder.mk (s.nodes ++ [out]) g2 s.assertions
          (s.next_id + 1)) d = levelAt s d from hgd]
      exact hs.add_sorted d hdlt
  · -- mul_sorted
    intro d hd
    rcases eq_or_ne d D with rfl | hne
    · rw [show levelAt (Builder.mk (s.nodes ++ [out]) g2 s.assertions
          (s.next_id + 1)) D = f (levelAt s D) from hlevel_D]
      rw [hfdef]
      simp only
      rcases Nat.lt_or_ge D s.gates.length with hdlt | hdge
      · exact hs.mul_sorted D hdlt
      · rw [hlevel_D_empty hdge]
        simp [emptyLevel]
    · obtain ⟨hdlt, hgd⟩ := hlevel_ne d hne hd
      rw [show levelAt (Builder.mk (s.nodes ++ [out]) g2 s.assertions
          (s.next_id + 1)) d = levelAt s d from hgd]
      exact hs.mul_sorted d hdlt
  · -- hint_sorted with the appended gate
    intro d hd
    rcases eq_or_ne d D with rfl | hne
    · rw [show levelAt (Builder.mk (s.nodes ++ [out]) g2 s.assertions
          (s.next_id + 1)) D = f (levelAt s D) from hlevel_D]
      rw [hfdef]
      simp only [List.map_append]
      rw [List.pairwise_append]
      refine ⟨?_, by simp, ?_⟩
      · rcases Nat.lt_or_ge D s.gates.length with hdlt | hdge
        · exact hs.hint_sorted D hdlt
        · rw [hlevel_D_empty hdge]
          simp [emptyLevel]
      · intro x hx y hy
        simp only [List.map_singleton, List.mem_singleton] at hy
        subst hy
        rcases List.mem_map.mp hx with ⟨g, hgmem, rfl⟩
        rcases Nat.lt_or_ge D s.gates.length with hdlt | hdge
        · have := (hs.hint_shape D hdlt g hgmem).out_lt
          show g.output_id < s.next_id
          omega
        · rw [hlevel_D_empty hdge] at hgmem
          simp [emptyLevel] at hgmem
    · obtain ⟨hdlt, hgd⟩ := hlevel_ne d hne hd
      rw [show levelAt (Builder.mk (s.nodes ++ [out]) g2 s.assertions
          (s.next_id + 1)) d = levelAt s d from hgd]
      exact hs.hint_sorted d hdlt
  · intro x hx
    have := hs.assert_lt x hx
    simp only [List.length_append, List.length_singleton]
    omega

/-- Every builder reachable through the construction API satisfies the
structural invariant. -/
theorem reachable_inv {s : Builder} (h : Reachable s) : Inv s := by
  induction h with
  | new => exact inv_new
  | init _ ih => exact inv_init _ ih
  | batch_init n _ ih => exact inv_batch_init _ ih n
  | constant v _ ih => exact inv_constant _ ih v
  | batch_constant vs _ ih => exact inv_batch_constant _ ih vs
  | set _ _ ih => exact inv_set _ ih _ _
  | batch_set _ _ _ ih => exact inv_batch_set _ ih _ _
  | add _ ha hb ih => exact inv_add _ ih _ _ ha hb
  | mul _ ha hb ih => exact inv_mul _ ih _ _ ha hb
  | hint _ _ hargs ih => exact inv_hint _ ih _ _ hargs
  | assert_equal _ ha hb ih => exact inv_assert_equal _ ih _ _ ha hb
  | batch_assert_equal _ _ hl hr ih =>
    exact inv_batch_assert_equal _ ih _ _ hl hr

/-! ### Helper lemmas for the claim statements -/

theorem foldr_max_ge (l : List Nat) (x : Nat) (hx : x ∈ l) :
    x ≤ l.foldr max 0 := by
  induction l with
  | nil => simp at hx
  | cons y ys ih =>
    simp only [List.foldr_cons]
    rcases List.mem_cons.mp hx with rfl | h
    · exact le_max_left _ _
    · have := ih h
      omega

theorem mem_foldr_pairs {γ : Type} (f g : γ → Nat) (l : List γ) (x : Nat)
    (hx : x ∈ l.foldr (fun a acc => f a :: g a :: acc) []) :
    ∃ a ∈ l, x = f a ∨ x = g a := by
  induction l with
  | nil => simp at hx
  | cons y ys ih =>
    simp only [List.foldr_cons, List.mem_cons] at hx
    rcases hx with rfl | rfl | h
    · exact ⟨y, List.mem_cons_self y ys, Or.inl rfl⟩
    · exact ⟨y, List.mem_cons_self y ys, Or.inr rfl⟩
    · rcases ih h with ⟨a, hA, hor⟩
      exact ⟨a, List.mem_cons_of_mem y hA, hor⟩

theorem mem_foldr_append {γ : Type} (f : γ → List Nat) (l : List γ) (x : Nat)
    (hx : x ∈ l.foldr (fun a acc => f a ++ acc) []) :
    ∃ a ∈ l, x ∈ f a := by
  induction l with
  | nil => simp at hx
  | cons y ys ih =>
    simp only [List.foldr_cons, List.mem_append] at hx
    rcases hx with h | h
    · exact ⟨y, List.mem_cons_self y ys, h⟩
    · rcases ih h with ⟨a, hA, hfa⟩
      exact ⟨a, List.mem_cons_of_mem y hA, hfa⟩

theorem mem_flatten_gates (s : Builder) (F : LevelGates → List Nat) (x : Nat)
    (hx : x ∈ (s.gates.map F).flatten) :
    ∃ d, d < s.gates.length ∧ x ∈ F (levelAt s d) := by
  rcases List.mem_flatten.mp hx with ⟨l, hl, hxl⟩
  rcases List.mem_map.mp hl with ⟨lg, hlg, rfl⟩
  rcases List.mem_iff_getElem.mp hlg with ⟨d, hd, heq⟩
  refine ⟨d, hd, ?_⟩
  rw [levelAt, List.getD_eq_getElem _ _ hd, heq]
  exact hxl

/-! ### Claim theorems about the builder structure -/

/-- C1: on every graph built through the construction API, Input and
Constant nodes have depth 0, and the output node of every add, mul and
hint gate has depth exactly 1 + the maximum of its parents' depths, hence
strictly greater than every parent's depth. -/
theorem gate_depth_correct (s : Builder) (h : Reachable s) :
    (∀ n ∈ s.nodes,
      (n.derivation = Derivation.Input ∨ n.derivation = Derivation.Const) →
      n.depth = 0) ∧
    (∀ d, d < s.gates.length →
      (∀ g ∈ (levelAt s d).adder_gates,
        (nodeAt s g.output_id).depth
          = 1 + max (nodeAt s g.left_id).depth (nodeAt s g.right_id).depth ∧
        (nodeAt s g.left_id).depth < (nodeAt s g.output_id).depth ∧
        (nodeAt s g.right_id).depth < (nodeAt s g.output_id).depth) ∧
      (∀ g ∈ (levelAt s d).multiplier_gates,
        (nodeAt s g.output_id).depth
          = 1 + max (nodeAt s g.left_id).depth (nodeAt s g.right_id).depth ∧
        (nodeAt s g.left_id).depth < (nodeAt s g.output_id).depth ∧
        (nodeAt s g.right_id).depth < (nodeAt s g.output_id).depth) ∧
      (∀ g ∈ (levelAt s d).lambda_gates,
        (nodeAt s g.output_id).depth
          = 1 + (g.input_ids.map (fun i => (nodeAt s i).depth)).foldr max 0 ∧
        ∀ i ∈ g.input_ids,
          (nodeAt s i).depth < (nodeAt s g.output_id).depth)) := by
  have hs := reachable_inv h
  constructor
  · intro n hn hder
    exact (hs.base_shape n hn hder).1
  · intro d hd
    refine ⟨?_, ?_, ?_⟩
    · intro g hg
      have hsh := hs.add_shape d hd g hg
      refine ⟨?_, ?_, ?_⟩
      · rw [hsh.out_depth, hsh.depth_eq]
        omega
      · rw [hsh.out_depth]
        have := hsh.depth_eq
        omega
      · rw [hsh.out_depth]
        have := hsh.depth_eq
        omega
    · intro g hg
      have hsh := hs.mul_shape d hd g hg
      refine ⟨?_, ?_, ?_⟩
      · rw [hsh.out_depth, hsh.depth_eq]
        omega
      · rw [hsh.out_depth]
        have := hsh.depth_eq
        omega
      · rw [hsh.out_depth]
        have := hsh.depth_eq
        omega
    · intro g hg
      have hsh := hs.hint_shape d hd g hg
      refine ⟨?_, ?_⟩
      · rw [hsh.out_depth, hsh.depth_eq]
        omega
      · intro i hi
        rw [hsh.out_depth]
        have h1 : (nodeAt s i).depth
            ≤ (g.input_ids.map (fun i => (nodeAt s i).depth)).foldr max 0 :=
          foldr_max_ge _ _ (List.mem_map.mpr ⟨i, hi, rfl⟩)
        have := hsh.depth_eq
        omega

/-- C1 witness: the concrete builder with one input and one add gate. -/
theorem gate_depth_correct_witness :
    (∀ n ∈ sampleB2.nodes,
      (n.derivation = Derivation.Input ∨ n.derivation = Derivation.Const) →
      n.depth = 0) ∧
    (∀ d, d < sampleB2.gates.length →
      (∀ g ∈ (levelAt sampleB2 d).adder_gates,
        (nodeAt sampleB2 g.output_id).depth
          = 1 + max (nodeAt sampleB2 g.left_id).depth
              (nodeAt sampleB2 g.right_id).depth ∧
        (nodeAt sampleB2 g.left_id).depth
          < (nodeAt sampleB2 g.output_id).depth ∧
        (nodeAt sampleB2 g.right_id).depth
          < (nodeAt sampleB2 g.output_id).depth) ∧
      (∀ g ∈ (levelAt sampleB2 d).multiplier_gates,
        (nodeAt sampleB2 g.output_id).depth
          = 1 + max (nodeAt sampleB2 g.left_id).depth
              (nodeAt sampleB2 g.right_id).depth ∧
        (nodeAt sampleB2 g.left_id).depth
          < (nodeAt sampleB2 g.output_id).depth ∧
        (nodeAt sampleB2 g.right_id).depth
          < (nodeAt sampleB2 g.output_id).depth) ∧
      (∀ g ∈ (levelAt sampleB2 d).lambda_gates,
        (nodeAt sampleB2 g.output_id).depth
          = 1 + (g.input_ids.map
              (fun i => (nodeAt sampleB2 i).depth)).foldr max 0 ∧
        ∀ i ∈ g.input_ids,
          (nodeAt sampleB2 i).depth
            < (nodeAt sampleB2 g.output_id).depth)) :=
  gate_depth_correct sampleB2
    (Reachable.add (Reachable.set (Reachable.init Reachable.new)
      (by decide)) (by decide) (by decide))

/-- C10: after any sequence of construction calls, `next_id` equals the
number of stored nodes, every stored node's id equals its index, and all
gate and assertion ids index the store in bounds. -/
theorem builder_indexing_sound (s : Builder) (h : Reachable s) :
    s.next_id = s.nodes.length ∧
    (∀ i, i < s.nodes.length → (nodeAt s i).id = i) ∧
    (∀ o ∈ allOutputs s, o < s.nodes.length) ∧
    (∀ i ∈ allReadIds s, i < s.nodes.length) ∧
    (∀ a ∈ s.assertions,
      a.left_id < s.nodes.length ∧ a.right_id < s.nodes.length) := by
  have hs := reachable_inv h
  refine ⟨hs.next_id_eq, hs.id_eq, ?_, ?_, hs.assert_lt⟩
  · intro o ho
    rcases mem_flatten_gates s levelOuts o ho with ⟨d, hd, hmem⟩
    rw [levelOuts] at hmem
    simp only [List.mem_append] at hmem
    rcases hmem with (hmem | hmem) | hmem
    · rcases List.mem_map.mp hmem with ⟨g, hg, rfl⟩
      exact (hs.add_shape d hd g hg).out_lt
    · rcases List.mem_map.mp hmem with ⟨g, hg, rfl⟩
      exact (hs.mul_shape d hd g hg).out_lt
    · rcases List.mem_map.mp hmem with ⟨g, hg, rfl⟩
      exact (hs.hint_shape d hd g hg).out_lt
  · intro i hi
    rcases mem_flatten_gates s levelReads i hi with ⟨d, hd, hmem⟩
    rw [levelReads] at hmem
    simp only [List.mem_append] at hmem
    rcases hmem with (hmem | hmem) | hmem
    · rcases mem_foldr_pairs _ _ _ _ hmem with ⟨g, hg, hor⟩
      have hsh := hs.add_shape d hd g hg
      rcases hor with rfl | rfl
      · exact hsh.left_lt
      · exact hsh.right_lt
    · rcases mem_foldr_pairs _ _ _ _ hmem with ⟨g, hg, hor⟩
      have hsh := hs.mul_shape d hd g hg
      rcases hor with rfl | rfl
      · exact hsh.left_lt
      · exact hsh.right_lt
    · rcases mem_foldr_append _ _ _ hmem with ⟨g, hg, hin⟩
      exact (hs.hint_shape d hd g hg).ins_lt i hin

/-- C10 witness: the indexing invariant at the concrete two-node builder. -/
theorem builder_indexing_sound_witness :
    sampleB2.next_id = sampleB2.nodes.length ∧
    (∀ i, i < sampleB2.nodes.length → (nodeAt sampleB2 i).id = i) ∧
    (∀ o ∈ allOutputs sampleB2, o < sampleB2.nodes.length) ∧
    (∀ i ∈ allReadIds sampleB2, i < sampleB2.nodes.length) ∧
    (∀ a ∈ sampleB2.assertions,
      a.left_id < sampleB2.nodes.length ∧
      a.right_id < sampleB2.nodes.length) :=
  builder_indexing_sound sampleB2
    (Reachable.add (Reachable.set (Reachable.init Reachable.new)
      (by decide)) (by decide) (by decide))

/-- C3 amended: `Builder::set` (builder.rs) writes an Input node and is a
no-op on Constant and derived nodes; the generic `GraphBuilder::set`
(graph_builder.rs) has no such guard and overwrites any node, as the
counterexample shows. -/
theorem set_respects_derivation (s : Builder) (h : Reachable s) (i v : Nat)
    (hi : i < s.nodes.length) :
    ((nodeAt s i).derivation ≠ Derivation.Input → s.set i v = s) ∧
    ((nodeAt s i).derivation = Derivation.Input →
      s.set i v = { s with nodes := updateValue s.nodes i (some v) } ∧
      (nodeAt (s.set i v) i).value = some v) := by
  have hs := reachable_inv h
  have hmem : nodeAt s i ∈ s.nodes := nodeAt_mem s i hi
  constructor
  · intro hnotinput
    rw [Builder.set]
    rcases hder : (nodeAt s i).derivation with _ | _ | _ | _ | _
    · rw [if_neg]
      intro hcon
      exact hcon.2 rfl
    · exact absurd hder hnotinput
    · rw [if_neg]
      intro hcon
      have h1 := hcon.1
      have h2 := hs.derived_pos _ hmem (Or.inl hder)
      omega
    · rw [if_neg]
      intro hcon
      have h1 := hcon.1
      have h2 := hs.derived_pos _ hmem (Or.inr (Or.inl hder))
      omega
    · rw [if_neg]
      intro hcon
      have h1 := hcon.1
      have h2 := hs.derived_pos _ hmem (Or.inr (Or.inr hder))
      omega
  · intro hinput
    have hdepth : (nodeAt s i).depth = 0 :=
      (hs.base_shape _ hmem (Or.inl hinput)).1
    have hguard : (nodeAt s i).depth = 0 ∧
        (nodeAt s i).derivation ≠ Derivation.Const := by
      refine ⟨hdepth, ?_⟩
      rw [hinput]
      intro hcon
      exact Derivation.noConfusion hcon
    have hset : s.set i v
        = { s with nodes := updateValue s.nodes i (some v) } := by
      rw [Builder.set, if_pos hguard]
    refine ⟨hset, ?_⟩
    rw [hset]
    show (nodeAt0 (updateValue s.nodes i (some v)) i).value = some v
    rw [nodeAt0_updateValue_self _ _ _ hi]

/-- C3 witness: on a Constant node of the guarded builder, `set` is a
no-op. -/
theorem set_respects_derivation_witness :
    ((nodeAt ((Builder.new.constant 4).2) 0).derivation ≠ Derivation.Input →
      ((Builder.new.constant 4).2).set 0 7 = (Builder.new.constant 4).2) ∧
    ((nodeAt ((Builder.new.constant 4).2) 0).derivation = Derivation.Input →
      ((Builder.new.constant 4).2).set 0 7
        = { (Builder.new.constant 4).2 with
            nodes := updateValue ((Builder.new.constant 4).2).nodes 0
              (some 7) } ∧
      (nodeAt (((Builder.new.constant 4).2).set 0 7) 0).value = some 7) :=
  set_respects_derivation (Builder.new.constant 4).2
    (Reachable.constant 4 Reachable.new) 0 7 (by decide)

/-- C3 counterexample: the unguarded `GraphBuilder::set` of
src/graph_builder.rs overwrites the value cell of a Constant node, so the
claim that the assignment is ignored is false on that implementation. -/
theorem set_constant_overwritten_cex :
    ((((GraphBuilder.new Nat).constant 5).2.set 0 7).nodes.map
      (fun n => n.value)) = [some 7] ∧
    (((GraphBuilder.new Nat).constant 5).2.nodes.map
      (fun n => n.value)) = [some 5] :=
  ⟨rfl, rfl⟩

/-! ### The constraint checker -/

theorem exc_bind_ok {ε α β : Type} (a : α) (f : α → Except ε β) :
    (Except.ok a >>= f) = f a := rfl

theorem exc_bind_error {ε α β : Type} (e : ε) (f : α → Except ε β) :
    ((Except.error e : Except ε α) >>= f) = Except.error e := rfl

theorem isOk_iff {ε α : Type} (x : Except ε α) :
    x.isOk = true ↔ ∃ v, x = Except.ok v := by
  cases x <;> simp [Except.isOk, Except.toBool]

theorem check_go_nil (ns : List RawNode) : check_go ns [] = Except.ok true :=
  rfl

theorem check_go_cons (ns : List RawNode) (a : EqualityAssertion)
    (rest : List EqualityAssertion) :
    check_go ns (a :: rest)
      = (readAt ns a.left_id >>= fun x =>
          readAt ns a.right_id >>= fun y =>
          if x ≠ y then Except.ok false else check_go ns rest) := rfl

theorem check_go_true_iff (ns : List RawNode) (l : List EqualityAssertion)
    (hok : ∀ a ∈ l, (∃ v, readAt ns a.left_id = Except.ok v) ∧
      (∃ v, readAt ns a.right_id = Except.ok v)) :
    (check_go ns l = Except.ok true ↔
      ∀ a ∈ l, readAt ns a.left_id = readAt ns a.right_id) := by
  induction l with
  | nil => simp [check_go_nil]
  | cons a rest ih =>
    obtain ⟨⟨vl, hvl⟩, ⟨vr, hvr⟩⟩ := hok a (List.mem_cons_self a rest)
    have ihr := ih (fun b hb => hok b (List.mem_cons_of_mem a hb))
    rw [check_go_cons, hvl, exc_bind_ok, hvr, exc_bind_ok]
    by_cases hv : vl = vr
    · subst hv
      rw [if_neg (fun hc => hc rfl)]
      rw [ihr]
      constructor
      · intro hall b hb
        rcases List.mem_cons.mp hb with rfl | hb2
        · rw [hvl, hvr]
        · exact hall b hb2
      · intro hall b hb
        exact hall b (List.mem_cons_of_mem a hb)
    · rw [if_pos hv]
      constructor
      · intro hfalse
        exact absurd hfalse (by simp)
      · intro hall
        exfalso
        have heq := hall a (List.mem_cons_self a rest)
        rw [hvl, hvr] at heq
        injection heq with heq2
        exact hv heq2

theorem check_go_false_of_mismatch (ns : List RawNode)
    (pre : List EqualityAssertion) (a : EqualityAssertion)
    (post : List EqualityAssertion)
    (hpre : ∀ b ∈ pre, (∃ v, readAt ns b.left_id = Except.ok v) ∧
      (∃ v, readAt ns b.right_id = Except.ok v) ∧
      readAt ns b.left_id = readAt ns b.right_id)
    (hl : ∃ v, readAt ns a.left_id = Except.ok v)
    (hr : ∃ v, readAt ns a.right_id = Except.ok v)
    (hne : readAt ns a.left_id ≠ readAt ns a.right_id) :
    check_go ns (pre ++ a :: post) = Except.ok false := by
  induction pre with
  | nil =>
    obtain ⟨vl, hvl⟩ := hl
    obtain ⟨vr, hvr⟩ := hr
    rw [List.nil_append, check_go_cons, hvl, exc_bind_ok, hvr, exc_bind_ok]
    rw [if_pos]
    intro hc
    subst hc
    exact hne (by rw [hvl, hvr])
  | cons b pres ih =>
    obtain ⟨⟨vbl, hvbl⟩, ⟨vbr, hvbr⟩, hbeq⟩ :=
      hpre b (List.mem_cons_self b pres)
    rw [List.cons_append, check_go_cons, hvbl, exc_bind_ok, hvbr,
      exc_bind_ok]
    have hvv : vbl = vbr := by
      rw [hvbl, hvbr] at hbeq
      injection hbeq
    subst hvv
    rw [if_neg (fun hc => hc rfl)]
    exact ih (fun c hc => hpre c (List.mem_cons_of_mem b hc))

/-- C2: assuming every node referenced by an assertion holds a value,
`check_constraints` returns true exactly when every registered assertion
has equal values on both sides; and at the first violated assertion it
returns false whatever comes later in the list. -/
theorem check_constraints_correct (s : Builder) :
    ((∀ a ∈ s.assertions, (readAt s.nodes a.left_id).isOk = true ∧
        (readAt s.nodes a.right_id).isOk = true) →
      (s.check_constraints = Except.ok true ↔
        ∀ a ∈ s.assertions,
          readAt s.nodes a.left_id = readAt s.nodes a.right_id)) ∧
    (∀ pre a post, s.assertions = pre ++ a :: post →
      (∀ b ∈ pre, (readAt s.nodes b.left_id).isOk = true ∧
        (readAt s.nodes b.right_id).isOk = true ∧
        readAt s.nodes b.left_id = readAt s.nodes b.right_id) →
      (readAt s.nodes a.left_id).isOk = true →
      (readAt s.nodes a.right_id).isOk = true →
      readAt s.nodes a.left_id ≠ readAt s.nodes a.right_id →
      s.check_constraints = Except.ok false) := by
  constructor
  · intro hok
    exact check_go_true_iff s.nodes s.assertions
      (fun a ha => ⟨(isOk_iff _).mp (hok a ha).1,
        (isOk_iff _).mp (hok a ha).2⟩)
  · intro pre a post hsplit hpre hL hr hne
    rw [Builder.check_constraints, hsplit]
    exact check_go_false_of_mismatch s.nodes pre a post
      (fun b hb => ⟨(isOk_iff _).mp (hpre b hb).1,
        (isOk_iff _).mp (hpre b hb).2.1, (hpre b hb).2.2⟩)
      ((isOk_iff _).mp hL) ((isOk_iff _).mp hr) hne

/-- C2 witness: on two equal constants the checker reports success. -/
theorem check_constraints_correct_witness :
    sampleAssert.check_constraints = Except.ok true :=
  ((check_constraints_correct sampleAssert).1 (by decide)).mpr
    (by
      intro a ha
      simp only [show sampleAssert.assertions
        = [⟨0, 1⟩] from rfl, List.mem_singleton] at ha
      subst ha
      rfl)

/-! ### Basic lemmas about gate execution -/

theorem exc_pure {ε α : Type} (a : α) :
    (pure a : Except ε α) = Except.ok a := rfl

theorem runAdd_eq_runGen (ns : List RawNode) (g : AddGate) :
    runAdd ns g = runGen ns g.toGen := by
  rw [runAdd, runGen, AddGate.toGen]
  cases h1 : readAt ns g.left_id with
  | error e =>
    simp [readAll, h1, exc_bind_error, exc_bind_ok]
  | ok x =>
    cases h2 : readAt ns g.right_id with
    | error e =>
      simp [readAll, h1, h2, exc_bind_error, exc_bind_ok]
    | ok y =>
      simp [readAll, h1, h2, exc_bind_ok, exc_pure]

theorem runMul_eq_runGen (ns : List RawNode) (g : MultiplyGate) :
    runMul ns g = runGen ns g.toGen := by
  rw [runMul, runGen, MultiplyGate.toGen]
  cases h1 : readAt ns g.left_id with
  | error e =>
    simp [readAll, h1, exc_bind_error, exc_bind_ok]
  | ok x =>
    cases h2 : readAt ns g.right_id with
    | error e =>
      simp [readAll, h1, h2, exc_bind_error, exc_bind_ok]
    | ok y =>
      simp [readAll, h1, h2, exc_bind_ok, exc_pure]

theorem runHint_eq_runGen (ns : List RawNode) (g : LambdaGate) :
    runHint ns g = runGen ns g.toGen := rfl

theorem foldlM_runAdd_eq (gs : List AddGate) (ns : List RawNode) :
    gs.foldlM runAdd ns = (gs.map AddGate.toGen).foldlM runGen ns := by
  induction gs generalizing ns with
  | nil => rfl
  | cons g gs ih =>
    rw [List.map_cons, List.foldlM_cons, List.foldlM_cons,
      runAdd_eq_runGen]
    cases runGen ns g.toGen with
    | error e => rfl
    | ok ns1 => exact ih ns1

theorem foldlM_runMul_eq (gs : List MultiplyGate) (ns : List RawNode) :
    gs.foldlM runMul ns = (gs.map MultiplyGate.toGen).foldlM runGen ns := by
  induction gs generalizing ns with
  | nil => rfl
  | cons g gs ih =>
    rw [List.map_cons, List.foldlM_cons, List.foldlM_cons,
      runMul_eq_runGen]
    cases runGen ns g.toGen with
    | error e => rfl
    | ok ns1 => exact ih ns1

theorem foldlM_runHint_eq (gs : List LambdaGate) (ns : List RawNode) :
    gs.foldlM runHint ns = (gs.map LambdaGate.toGen).foldlM runGen ns := by
  induction gs generalizing ns with
  | nil => rfl
  | cons g gs ih =>
    rw [List.map_cons, List.foldlM_cons, List.foldlM_cons,
      runHint_eq_runGen]
    cases runGen ns g.toGen with
    | error e => rfl
    | ok ns1 => exact ih ns1

theorem readAt_updateValue_ne (ns : List RawNode) (i j : Nat)
    (v : Option Nat) (h : j ≠ i) :
    readAt (updateValue ns i v) j = readAt ns j := by
  rw [readAt, readAt, updateValue_length,
    nodeAt0_updateValue_ne ns i j v (fun hc => h hc.symm)]

theorem readAt_ok_iff (ns : List RawNode) (i : Nat) (v : Nat) :
    readAt ns i = Except.ok v ↔
      i < ns.length ∧ (nodeAt0 ns i).value = some v := by
  rw [readAt]
  split
  · cases hv : (nodeAt0 ns i).value <;> simp [hv] <;> tauto
  · simp
    omega

theorem readAt_error_shape (ns : List RawNode) (i : Nat) (m : String)
    (hi : i < ns.length) (h : readAt ns i = Except.error m) :
    (nodeAt0 ns i).value = none ∧ m = unfilledMsg (nodeAt0 ns i).id := by
  rw [readAt, if_pos hi] at h
  cases hv : (nodeAt0 ns i).value with
  | none =>
    rw [hv] at h
    exact ⟨rfl, (Except.error.inj h).symm⟩
  | some v =>
    rw [hv] at h
    exact absurd h (by simp)

theorem readAt_none_not_ok (ns : List RawNode) (i : Nat)
    (h : (nodeAt0 ns i).value = none) :
    ∀ v, readAt ns i ≠ Except.ok v := by
  intro v hok
  rcases (readAt_ok_iff ns i v).mp hok with ⟨_, hv⟩
  rw [h] at hv
  exact Option.noConfusion hv

theorem readD_of_readAt_ok (ns : List RawNode) (i : Nat) (v : Nat)
    (h : readAt ns i = Except.ok v) : readD ns i = v := by
  rcases (readAt_ok_iff ns i v).mp h with ⟨_, hv⟩
  rw [readD, hv]
  rfl

theorem writeAt_ok_iff (ns : List RawNode) (i : Nat) (v : Nat)
    (ns' : List RawNode) :
    writeAt ns i v = Except.ok ns' ↔
      i < ns.length ∧ ns' = updateValue ns i (some v) := by
  rw [writeAt]
  split
  · simp
    tauto
  · simp
    omega

theorem shapeEq_refl (ns : List RawNode) : ShapeEq ns ns :=
  ⟨rfl, fun _ => ⟨rfl, rfl, rfl, rfl⟩⟩

theorem shapeEq_trans {n1 n2 n3 : List RawNode} (h1 : ShapeEq n1 n2)
    (h2 : ShapeEq n2 n3) : ShapeEq n1 n3 := by
  refine ⟨h2.1.trans h1.1, fun j => ?_⟩
  obtain ⟨a1, b1, c1, d1⟩ := h1.2 j
  obtain ⟨a2, b2, c2, d2⟩ := h2.2 j
  exact ⟨a2.trans a1, b2.trans b1, c2.trans c1, d2.trans d1⟩

theorem shapeEq_updateValue (ns : List RawNode) (i : Nat)
    (v : Option Nat) : ShapeEq ns (updateValue ns i v) := by
  refine ⟨updateValue_length ns i v, fun j => ?_⟩
  rcases eq_or_ne i j with rfl | hne
  · rcases Nat.lt_or_ge i ns.length with hlt | hge
    · rw [nodeAt0_updateValue_self ns i v hlt]
      exact ⟨rfl, rfl, rfl, rfl⟩
    · rw [updateValue, listModify_oob ns i _ hge]
      exact ⟨rfl, rfl, rfl, rfl⟩
  · rw [nodeAt0_updateValue_ne ns i j v hne]
    exact ⟨rfl, rfl, rfl, rfl⟩

theorem unfilledBack_refl (ns : List RawNode) : UnfilledBack ns ns :=
  fun _ h => h

theorem unfilledBack_trans {n1 n2 n3 : List RawNode}
    (h1 : UnfilledBack n1 n2) (h2 : UnfilledBack n2 n3) :
    UnfilledBack n1 n3 :=
  fun j h => h1 j (h2 j h)

theorem unfilledBack_updateValue (ns : List RawNode) (i : Nat) (v : Nat) :
    UnfilledBack ns (updateValue ns i (some v)) := by
  intro j hj
  rcases eq_or_ne i j with rfl | hne
  · rcases Nat.lt_or_ge i ns.length with hlt | hge
    · rw [nodeAt0_updateValue_self ns i _ hlt] at hj
      exact absurd hj (by simp)
    · rwa [updateValue, listModify_oob ns i _ hge] at hj
  · rwa [nodeAt0_updateValue_ne ns i j _ hne] at hj

theorem readAll_error (t : List RawNode) (reads : List Nat) (m : String)
    (h : readAll t reads = Except.error m) :
    ∃ i ∈ reads, readAt t i = Except.error m := by
  induction reads with
  | nil => simp [readAll] at h
  | cons i rest ih =>
    rw [readAll] at h
    cases hi : readAt t i with
    | error e =>
      rw [hi, exc_bind_error] at h
      exact ⟨i, List.mem_cons_self i rest,
        by rw [hi, Except.error.inj h]⟩
    | ok v =>
      rw [hi, exc_bind_ok] at h
      cases hr : readAll t rest with
      | error e =>
        rw [hr, exc_bind_error] at h
        rcases ih (by rw [hr, Except.error.inj h]) with ⟨j, hj, hje⟩
        exact ⟨j, List.mem_cons_of_mem i hj, hje⟩
      | ok vs =>
        rw [hr, exc_bind_ok] at h
        exact absurd h (by simp [exc_pure])

theorem readAll_each_ok (t : List RawNode) (reads : List Nat)
    (vs : List Nat) (h : readAll t reads = Except.ok vs) :
    ∀ i ∈ reads, ∃ v, readAt t i = Except.ok v := by
  induction reads generalizing vs with
  | nil => simp
  | cons i rest ih =>
    rw [readAll] at h
    cases hi : readAt t i with
    | error e =>
      rw [hi, exc_bind_error] at h
      exact absurd h (by simp)
    | ok v =>
      rw [hi, exc_bind_ok] at h
      cases hr : readAll t rest with
      | error e =>
        rw [hr, exc_bind_error] at h
        exact absurd h (by simp)
      | ok ws =>
        intro j hj
        rcases List.mem_cons.mp hj with rfl | hj2
        · exact ⟨v, hi⟩
        · exact ih ws hr j hj2

theorem readAll_all_ok (t : List RawNode) (reads : List Nat)
    (h : ∀ i ∈ reads, ∃ v, readAt t i = Except.ok v) :
    readAll t reads = Except.ok (reads.map (readD t)) := by
  induction reads with
  | nil => rfl
  | cons i rest ih =>
    obtain ⟨v, hv⟩ := h i (List.mem_cons_self i rest)
    rw [readAll, hv, exc_bind_ok,
      ih (fun j hj => h j (List.mem_cons_of_mem i hj)), exc_bind_ok,
      List.map_cons, readD_of_readAt_ok t i v hv]

theorem readD_eq_of_readAt_eq (t ns0 : List RawNode) (i : Nat)
    (heq : readAt t i = readAt ns0 i)
    (hok : ∃ v, readAt ns0 i = Except.ok v) : readD t i = readD ns0 i := by
  obtain ⟨v, hv⟩ := hok
  rw [readD_of_readAt_ok t i v (heq.trans hv), readD_of_readAt_ok ns0 i v hv]

theorem runGen_ok (ns : List RawNode) (g : GenGate) (ns' : List RawNode)
    (h : runGen ns g = Except.ok ns') :
    g.target < ns.length ∧
    (∀ i ∈ g.reads, ∃ v, readAt ns i = Except.ok v) ∧
    ns' = updateValue ns g.target (some (pureVal ns g)) := by
  rw [runGen] at h
  cases hr : readAll ns g.reads with
  | error e =>
    rw [hr, exc_bind_error] at h
    exact absurd h (by simp)
  | ok vs =>
    rw [hr, exc_bind_ok] at h
    have heach := readAll_each_ok ns g.reads vs hr
    have hall := readAll_all_ok ns g.reads heach
    rw [hall] at hr
    have hvs : vs = g.reads.map (readD ns) := (Except.ok.inj hr).symm
    rcases (writeAt_ok_iff ns g.target (g.f vs) ns').mp h with ⟨hlt, hup⟩
    subst hvs
    exact ⟨hlt, heach, hup⟩

theorem runGen_ok_of (ns : List RawNode) (g : GenGate)
    (hreads : ∀ i ∈ g.reads, ∃ v, readAt ns i = Except.ok v)
    (htgt : g.target < ns.length) :
    runGen ns g
      = Except.ok (updateValue ns g.target (some (pureVal ns g))) := by
  rw [runGen, readAll_all_ok ns g.reads hreads, exc_bind_ok, writeAt,
    if_pos htgt]
  rfl

theorem updateValue_comm (t : List RawNode) (i j : Nat)
    (v w : Option Nat) (hne : i ≠ j) :
    updateValue (updateValue t i v) j w
      = updateValue (updateValue t j w) i v := by
  induction t generalizing i j with
  | nil => rfl
  | cons x xs ih =>
    cases i with
    | zero =>
      cases j with
      | zero => exact absurd rfl hne
      | succ jj => rfl
    | succ ii =>
      cases j with
      | zero => rfl
      | succ jj =>
        show x :: updateValue (updateValue xs ii v) jj w
          = x :: updateValue (updateValue xs jj w) ii v
        rw [ih ii jj (by omega)]

theorem writeAll_nil (ns0 : List RawNode) (t : List RawNode) :
    writeAll ns0 [] t = t := rfl

theorem writeAll_cons (ns0 : List RawNode) (g : GenGate)
    (gs : List GenGate) (t : List RawNode) :
    writeAll ns0 (g :: gs) t
      = writeAll ns0 gs (updateValue t g.target (some (pureVal ns0 g))) :=
  rfl

theorem writeAll_perm (ns0 : List RawNode) (gs gs' : List GenGate)
    (hperm : gs.Perm gs')
    (hnodup : (gs.map (fun g => g.target)).Nodup) (t : List RawNode) :
    writeAll ns0 gs t = writeAll ns0 gs' t := by
  refine hperm.foldl_eq' ?_ t
  intro x hx y hy z
  rcases eq_or_ne x y with rfl | hxy
  · rfl
  · have hne : x.target ≠ y.target := by
      intro hc
      exact hxy (List.inj_on_of_nodup_map hnodup hx hy hc)
    exact updateValue_comm z x.target y.target _ _ hne

theorem foldGen_ok_all (gs : List GenGate) : ∀ (ns0 t : List RawNode),
    t.length = ns0.length →
    (∀ g ∈ gs, ∀ i ∈ g.reads,
      readAt t i = readAt ns0 i ∧ ∃ v, readAt ns0 i = Except.ok v) →
    (∀ g ∈ gs, ∀ h ∈ gs, ∀ i ∈ g.reads, i ≠ h.target) →
    (∀ g ∈ gs, g.target < ns0.length) →
    gs.foldlM runGen t = Except.ok (writeAll ns0 gs t) := by
  induction gs with
  | nil =>
    intro ns0 t _ _ _ _
    rfl
  | cons g gs ih =>
    intro ns0 t hlen hreads hdisj htgt
    have hself : ∀ i ∈ g.reads, ∃ v, readAt t i = Except.ok v := by
      intro i hi
      obtain ⟨heq, v, hv⟩ := hreads g (List.mem_cons_self g gs) i hi
      exact ⟨v, heq.trans hv⟩
    have hg := runGen_ok_of t g hself
      (by rw [hlen]; exact htgt g (List.mem_cons_self g gs))
    have hpv : pureVal t g = pureVal ns0 g := by
      rw [pureVal, pureVal]
      apply congrArg
      apply List.map_congr_left
      intro i hi
      obtain ⟨heq, hok⟩ := hreads g (List.mem_cons_self g gs) i hi
      exact readD_eq_of_readAt_eq t ns0 i heq hok
    rw [List.foldlM_cons, hg, hpv, exc_bind_ok, writeAll_cons]
    set t1 := updateValue t g.target (some (pureVal ns0 g)) with ht1
    apply ih ns0 t1
    · rw [ht1, updateValue_length]
      exact hlen
    · intro h hh i hi
      obtain ⟨heq, hok⟩ := hreads h (List.mem_cons_of_mem g hh) i hi
      refine ⟨?_, hok⟩
      rw [ht1, readAt_updateValue_ne t g.target i _
        (hdisj h (List.mem_cons_of_mem g hh) g (List.mem_cons_self g gs)
          i hi)]
      exact heq
    · intro h1 hh1 h2 hh2 i hi
      exact hdisj h1 (List.mem_cons_of_mem g hh1) h2
        (List.mem_cons_of_mem g hh2) i hi
    · intro h hh
      exact htgt h (List.mem_cons_of_mem g hh)

theorem foldGen_ok_reads (gs : List GenGate) : ∀ (t u : List RawNode),
    (∀ g ∈ gs, ∀ h ∈ gs, ∀ i ∈ g.reads, i ≠ h.target) →
    gs.foldlM runGen t = Except.ok u →
    ∀ g ∈ gs, ∀ i ∈ g.reads, ∃ v, readAt t i = Except.ok v := by
  induction gs with
  | nil =>
    intro t u _ _ g hg
    simp at hg
  | cons g gs ih =>
    intro t u hdisj hok h hh i hi
    rw [List.foldlM_cons] at hok
    cases hg : runGen t g with
    | error e =>
      rw [hg, exc_bind_error] at hok
      exact absurd hok (by simp)
    | ok t1 =>
      rw [hg, exc_bind_ok] at hok
      obtain ⟨htgt1, hreads1, hup1⟩ := runGen_ok t g t1 hg
      rcases List.mem_cons.mp hh with rfl | hh2
      · exact hreads1 i hi
      · have := ih t1 u
          (fun a ha b hb j hj =>
            hdisj a (List.mem_cons_of_mem g ha) b (List.mem_cons_of_mem g hb)
              j hj)
          hok h hh2 i hi
        obtain ⟨v, hv⟩ := this
        refine ⟨v, ?_⟩
        rw [hup1, readAt_updateValue_ne t g.target i _
          (hdisj h hh g (List.mem_cons_self g gs) i hi)] at hv
        exact hv

theorem foldGen_shape (gs : List GenGate) : ∀ (t u : List RawNode),
    gs.foldlM runGen t = Except.ok u →
    ShapeEq t u ∧ UnfilledBack t u := by
  induction gs with
  | nil =>
    intro t u hok
    have : t = u := Except.ok.inj hok
    subst this
    exact ⟨shapeEq_refl t, unfilledBack_refl t⟩
  | cons g gs ih =>
    intro t u hok
    rw [List.foldlM_cons] at hok
    cases hg : runGen t g with
    | error e =>
      rw [hg, exc_bind_error] at hok
      exact absurd hok (by simp)
    | ok t1 =>
      rw [hg, exc_bind_ok] at hok
      obtain ⟨_, _, hup⟩ := runGen_ok t g t1 hg
      obtain ⟨hs1, hu1⟩ := ih t1 u hok
      subst hup
      exact ⟨shapeEq_trans (shapeEq_updateValue t _ _) hs1,
        unfilledBack_trans (unfilledBack_updateValue t _ _) hu1⟩

theorem foldGen_perm (gs gs' : List GenGate) (hperm : gs.Perm gs')
    (hnodup : (gs.map (fun g => g.target)).Nodup)
    (hdisj : ∀ g ∈ gs, ∀ h ∈ gs, ∀ i ∈ g.reads, i ≠ h.target)
    (t u : List RawNode)
    (htgt : ∀ g ∈ gs, g.target < t.length)
    (hok : gs.foldlM runGen t = Except.ok u) :
    gs'.foldlM runGen t = Except.ok u := by
  have hreads := foldGen_ok_reads gs t u hdisj hok
  have h1 := foldGen_ok_all gs t t rfl
    (fun g hg i hi => ⟨rfl, hreads g hg i hi⟩) hdisj htgt
  have hu : u = writeAll t gs t := by
    rw [h1] at hok
    exact (Except.ok.inj hok).symm
  have h2 := foldGen_ok_all gs' t t rfl
    (fun g hg i hi => ⟨rfl, hreads g (hperm.mem_iff.mpr hg) i hi⟩)
    (fun g hg h hh i hi =>
      hdisj g (hperm.mem_iff.mpr hg) h (hperm.mem_iff.mpr hh) i hi)
    (fun g hg => htgt g (hperm.mem_iff.mpr hg))
  rw [h2, hu, writeAll_perm t gs gs' hperm hnodup t]

/-! ### Level-by-level lemmas -/

theorem runLevel_gen (ns : List RawNode) (lg : LevelGates) :
    runLevel ns lg =
      ((lg.adder_gates.map AddGate.toGen).foldlM runGen ns >>= fun ns1 =>
        (lg.multiplier_gates.map MultiplyGate.toGen).foldlM runGen ns1 >>=
          fun ns2 =>
        (lg.lambda_gates.map LambdaGate.toGen).foldlM runGen ns2) := by
  rw [runLevel]
  simp only [foldlM_runAdd_eq, foldlM_runMul_eq, foldlM_runHint_eq]

theorem kindWf_transfer {ns ns' : List RawNode} (h : ShapeEq ns ns')
    {d : Nat} {g : GenGate} (hw : KindWf ns d g) : KindWf ns' d g := by
  obtain ⟨hr, ht, hd⟩ := hw
  refine ⟨fun i hi => ?_, ?_, ?_⟩
  · refine ⟨?_, ?_⟩
    · rw [h.1]
      exact (hr i hi).1
    · rw [(h.2 i).1]
      exact (hr i hi).2
  · rw [h.1]
    exact ht
  · rw [(h.2 g.target).1]
    exact hd

theorem levelWf_transfer {ns ns' : List RawNode} (h : ShapeEq ns ns')
    {d : Nat} {lg : LevelGates} (hw : LevelWf ns d lg) :
    LevelWf ns' d lg := by
  obtain ⟨h1, h2, h3, h4, h5, h6⟩ := hw
  exact ⟨fun g hg => kindWf_transfer h (h1 g hg),
    fun g hg => kindWf_transfer h (h2 g hg),
    fun g hg => kindWf_transfer h (h3 g hg), h4, h5, h6⟩

theorem gensWf_disj (ns : List RawNode) (d : Nat) (gs : List GenGate)
    (hw : ∀ g ∈ gs, KindWf ns d g) :
    ∀ g ∈ gs, ∀ h ∈ gs, ∀ i ∈ g.reads, i ≠ h.target := by
  intro g hg h hh i hi hc
  have h1 := ((hw g hg).1 i hi).2
  have h2 := (hw h hh).2.2
  rw [hc, h2] at h1
  omega

theorem runLevel_ok_shape (ns : List RawNode) (lg : LevelGates)
    (ns' : List RawNode) (h : runLevel ns lg = Except.ok ns') :
    ShapeEq ns ns' ∧ UnfilledBack ns ns' := by
  rw [runLevel_gen] at h
  cases hA : (lg.adder_gates.map AddGate.toGen).foldlM runGen ns with
  | error e =>
    rw [hA, exc_bind_error] at h
    exact absurd h (by simp)
  | ok ns1 =>
    rw [hA, exc_bind_ok] at h
    cases hM : (lg.multiplier_gates.map MultiplyGate.toGen).foldlM runGen ns1
      with
    | error e =>
      rw [hM, exc_bind_error] at h
      exact absurd h (by simp)
    | ok ns2 =>
      rw [hM, exc_bind_ok] at h
      obtain ⟨sA, uA⟩ := foldGen_shape _ ns ns1 hA
      obtain ⟨sM, uM⟩ := foldGen_shape _ ns1 ns2 hM
      obtain ⟨sH, uH⟩ := foldGen_shape _ ns2 ns' h
      exact ⟨shapeEq_trans (shapeEq_trans sA sM) sH,
        unfilledBack_trans (unfilledBack_trans uA uM) uH⟩

theorem runLevel_perm (ns : List RawNode) (d : Nat) (lgA lgB : LevelGates)
    (hw : LevelWf ns d lgA)
    (hrel : lgA.adder_gates.Perm lgB.adder_gates ∧
      lgA.multiplier_gates.Perm lgB.multiplier_gates ∧
      lgA.lambda_gates.Perm lgB.lambda_gates)
    (ns' : List RawNode) (hok : runLevel ns lgA = Except.ok ns') :
    runLevel ns lgB = Except.ok ns' := by
  obtain ⟨hwa, hwm, hwh, hna, hnm, hnh⟩ := hw
  rw [runLevel_gen] at hok ⊢
  cases hA : (lgA.adder_gates.map AddGate.toGen).foldlM runGen ns with
  | error e =>
    rw [hA, exc_bind_error] at hok
    exact absurd hok (by simp)
  | ok ns1 =>
    rw [hA, exc_bind_ok] at hok
    cases hM : (lgA.multiplier_gates.map MultiplyGate.toGen).foldlM runGen
      ns1 with
    | error e =>
      rw [hM, exc_bind_error] at hok
      exact absurd hok (by simp)
    | ok ns2 =>
      rw [hM, exc_bind_ok] at hok
      have hshape1 : ShapeEq ns ns1 := (foldGen_shape _ ns ns1 hA).1
      have hshape2 : ShapeEq ns ns2 :=
        shapeEq_trans hshape1 (foldGen_shape _ ns1 ns2 hM).1
      have hA2 := foldGen_perm _ _ (hrel.1.map AddGate.toGen) hna
        (gensWf_disj ns d _ hwa) ns ns1
        (fun g hg => (hwa g hg).2.1) hA
      have hwm1 : ∀ g ∈ lgA.multiplier_gates.map MultiplyGate.toGen,
          KindWf ns1 d g :=
        fun g hg => kindWf_transfer hshape1 (hwm g hg)
      have hM2 := foldGen_perm _ _ (hrel.2.1.map MultiplyGate.toGen) hnm
        (gensWf_disj ns1 d _ hwm1) ns1 ns2
        (fun g hg => (hwm1 g hg).2.1) hM
      have hwh2 : ∀ g ∈ lgA.lambda_gates.map LambdaGate.toGen,
          KindWf ns2 d g :=
        fun g hg => kindWf_transfer hshape2 (hwh g hg)
      have hH2 := foldGen_perm _ _ (hrel.2.2.map LambdaGate.toGen) hnh
        (gensWf_disj ns2 d _ hwh2) ns2 ns'
        (fun g hg => (hwh2 g hg).2.1) hok
      rw [hA2, exc_bind_ok, hM2, exc_bind_ok]
      exact hH2

theorem inv_levelWf (s : Builder) (hs : Inv s) (d : Nat)
    (hd : d < s.gates.length) : LevelWf s.nodes d (levelAt s d) := by
  have hmapA : ((levelAt s d).adder_gates.map AddGate.toGen).map
      (fun g => g.target) = (levelAt s d).adder_gates.map
        (fun g => g.output_id) := by
    rw [List.map_map]
    rfl
  have hmapM : ((levelAt s d).multiplier_gates.map MultiplyGate.toGen).map
      (fun g => g.target) = (levelAt s d).multiplier_gates.map
        (fun g => g.output_id) := by
    rw [List.map_map]
    rfl
  have hmapH : ((levelAt s d).lambda_gates.map LambdaGate.toGen).map
      (fun g => g.target) = (levelAt s d).lambda_gates.map
        (fun g => g.output_id) := by
    rw [List.map_map]
    rfl
  refine ⟨?_, ?_, ?_, ?_, ?_, ?_⟩
  · intro g hg
    rcases List.mem_map.mp hg with ⟨g0, hg0, rfl⟩
    have hsh := hs.add_shape d hd g0 hg0
    refine ⟨?_, hsh.out_lt, hsh.out_depth⟩
    intro i hi
    rcases List.mem_cons.mp hi with rfl | hi2
    · refine ⟨hsh.left_lt, ?_⟩
      calc (nodeAt0 s.nodes g0.left_id).depth
          ≤ max (nodeAt s g0.left_id).depth (nodeAt s g0.right_id).depth :=
            le_max_left _ _
        _ = d := hsh.depth_eq
    · rcases List.mem_singleton.mp hi2 with rfl
      refine ⟨hsh.right_lt, ?_⟩
      calc (nodeAt0 s.nodes g0.right_id).depth
          ≤ max (nodeAt s g0.left_id).depth (nodeAt s g0.right_id).depth :=
            le_max_right _ _
        _ = d := hsh.depth_eq
  · intro g hg
    rcases List.mem_map.mp hg with ⟨g0, hg0, rfl⟩
    have hsh := hs.mul_shape d hd g0 hg0
    refine ⟨?_, hsh.out_lt, hsh.out_depth⟩
    intro i hi
    rcases List.mem_cons.mp hi with rfl | hi2
    · refine ⟨hsh.left_lt, ?_⟩
      calc (nodeAt0 s.nodes g0.left_id).depth
          ≤ max (nodeAt s g0.left_id).depth (nodeAt s g0.right_id).depth :=
            le_max_left _ _
        _ = d := hsh.depth_eq
    · rcases List.mem_singleton.mp hi2 with rfl
      refine ⟨hsh.right_lt, ?_⟩
      calc (nodeAt0 s.nodes g0.right_id).depth
          ≤ max (nodeAt s g0.left_id).depth (nodeAt s g0.right_id).depth :=
            le_max_right _ _
        _ = d := hsh.depth_eq
  · intro g hg
    rcases List.mem_map.mp hg with ⟨g0, hg0, rfl⟩
    have hsh := hs.hint_shape d hd g0 hg0
    refine ⟨?_, hsh.out_lt, hsh.out_depth⟩
    intro i hi
    refine ⟨hsh.ins_lt i hi, ?_⟩
    calc (nodeAt0 s.nodes i).depth
        ≤ (g0.input_ids.map (fun j => (nodeAt s j).depth)).foldr max 0 :=
          foldr_max_ge _ _ (List.mem_map.mpr ⟨i, hi, rfl⟩)
      _ = d := hsh.depth_eq
  · rw [hmapA]
    exact (hs.add_sorted d hd).imp (fun h => Nat.ne_of_lt h)
  · rw [hmapM]
    exact (hs.mul_sorted d hd).imp (fun h => Nat.ne_of_lt h)
  · rw [hmapH]
    exact (hs.hint_sorted d hd).imp (fun h => Nat.ne_of_lt h)

theorem fill_go_cons (ns : List RawNode) (lg : LevelGates)
    (rest : List LevelGates) :
    fill_go ns (lg :: rest)
      = (runLevel ns lg >>= fun ns1 => fill_go ns1 rest) := rfl

theorem fill_go_shape (gates : List LevelGates) : ∀ (ns ns' : List RawNode),
    fill_go ns gates = Except.ok ns' →
    ShapeEq ns ns' ∧ UnfilledBack ns ns' := by
  induction gates with
  | nil =>
    intro ns ns' hok
    have : ns = ns' := Except.ok.inj hok
    subst this
    exact ⟨shapeEq_refl ns, unfilledBack_refl ns⟩
  | cons lg rest ih =>
    intro ns ns' hok
    rw [fill_go_cons] at hok
    cases hL : runLevel ns lg with
    | error e =>
      rw [hL, exc_bind_error] at hok
      exact absurd hok (by simp)
    | ok ns1 =>
      rw [hL, exc_bind_ok] at hok
      obtain ⟨s1, u1⟩ := runLevel_ok_shape ns lg ns1 hL
      obtain ⟨s2, u2⟩ := ih ns1 ns' hok
      exact ⟨shapeEq_trans s1 s2, unfilledBack_trans u1 u2⟩

theorem fill_go_perm (gatesA gatesB : List LevelGates)
    (hrel : BucketsPerm gatesA gatesB) : ∀ ns : List RawNode,
    (∀ lg ∈ gatesA, ∃ d, LevelWf ns d lg) →
    ∀ u, fill_go ns gatesA = Except.ok u →
      fill_go ns gatesB = Except.ok u := by
  induction hrel with
  | nil =>
    intro ns _ u hok
    exact hok
  | @cons a b l1 l2 hpair hrest ih =>
    intro ns hwf u hok
    rw [fill_go_cons] at hok
    cases hL : runLevel ns a with
    | error e =>
      rw [hL, exc_bind_error] at hok
      exact absurd hok (by simp)
    | ok ns1 =>
      rw [hL, exc_bind_ok] at hok
      obtain ⟨d, hwfa⟩ := hwf a (List.mem_cons_self a l1)
      have hL2 := runLevel_perm ns d a b hwfa hpair ns1 hL
      have hshape := (runLevel_ok_shape ns a ns1 hL).1
      rw [fill_go_cons, hL2, exc_bind_ok]
      refine ih ns1 ?_ u hok
      intro lg hlg
      obtain ⟨d2, hw2⟩ := hwf lg (List.mem_cons_of_mem a hlg)
      exact ⟨d2, levelWf_transfer hshape hw2⟩

/-- C9: evaluation is deterministic with respect to scheduling: for a
reachable builder, if the in-order pass succeeds, any pass that permutes
the gates within each (depth, kind) bucket — the only freedom a worker
pool has — succeeds with identical values in every node. -/
theorem fill_nodes_deterministic (s : Builder) (h : Reachable s)
    (gates2 : List LevelGates) (hperm : BucketsPerm s.gates gates2)
    (s1 : Builder) (hok : s.fill_nodes = Except.ok s1) :
    ∃ s2 : Builder, Builder.fill_nodes { s with gates := gates2 }
      = Except.ok s2 ∧ s2.nodes = s1.nodes := by
  have hs := reachable_inv h
  rw [Builder.fill_nodes] at hok
  cases hf : fill_go s.nodes s.gates with
  | error e =>
    rw [hf] at hok
    exact absurd hok (by simp [Except.map])
  | ok ns' =>
    rw [hf] at hok
    have hs1 : s1 = { s with nodes := ns' } := by
      simp only [Except.map] at hok
      exact (Except.ok.inj hok).symm
    have hwf : ∀ lg ∈ s.gates, ∃ d, LevelWf s.nodes d lg := by
      intro lg hlg
      rcases List.mem_iff_getElem.mp hlg with ⟨d, hd, heq⟩
      refine ⟨d, ?_⟩
      have hlev : levelAt s d = lg := by
        rw [levelAt, List.getD_eq_getElem _ _ hd, heq]
      rw [← hlev]
      exact inv_levelWf s hs d hd
    have h2 := fill_go_perm s.gates gates2 hperm s.nodes hwf ns' hf
    refine ⟨{ s with gates := gates2, nodes := ns' }, ?_, by rw [hs1]⟩
    show (fill_go s.nodes gates2).map _ = _
    rw [h2]
    rfl

/-- C9 witness: the two add gates of `sampleB3` evaluated in swapped
order produce the same store. -/
theorem fill_nodes_deterministic_witness :
    ∃ s2 : Builder, Builder.fill_nodes
        { sampleB3 with gates :=
            [⟨[⟨0, 0, 2⟩, ⟨0, 0, 1⟩], [], []⟩] }
      = Except.ok s2 ∧ s2.nodes = sampleB3Filled.nodes :=
  fill_nodes_deterministic sampleB3
    (Reachable.add (Reachable.add (Reachable.set
      (Reachable.init Reachable.new) (by decide)) (by decide) (by decide))
      (by decide) (by decide))
    [⟨[⟨0, 0, 2⟩, ⟨0, 0, 1⟩], [], []⟩]
    (List.Forall₂.cons
      ⟨List.Perm.swap _ _ _, List.Perm.refl _, List.Perm.refl _⟩
      List.Forall₂.nil)
    sampleB3Filled rfl

/-! ### Failure analysis of fill_nodes (claim C8)

Any error an evaluation pass produces is the `Value unfilled` panic of
`RawNode::read` at some in-bounds node whose value cell is empty, and an
unfilled operand that no gate of the pass writes forces such an error. -/

theorem writeAt_error_not_lt (ns : List RawNode) (i : Nat) (v : Nat)
    (m : String) (h : writeAt ns i v = Except.error m) : ¬ i < ns.length := by
  intro hc
  rw [writeAt, if_pos hc] at h
  exact absurd h (by simp)

theorem foldGen_error (gs : List GenGate) : ∀ (t : List RawNode) (m : String),
    (∀ g ∈ gs, (∀ i ∈ g.reads, i < t.length) ∧ g.target < t.length) →
    (∀ j, j < t.length → (nodeAt0 t j).id = j) →
    gs.foldlM runGen t = Except.error m →
    ∃ k, k < t.length ∧ (nodeAt0 t k).value = none ∧ m = unfilledMsg k := by
  induction gs with
  | nil =>
    intro t m _ _ h
    rw [List.foldlM_nil, exc_pure] at h
    exact absurd h (by simp)
  | cons g gs ih =>
    intro t m hb hid hfold
    rw [List.foldlM_cons] at hfold
    cases hg : runGen t g with
    | error e =>
      rw [hg, exc_bind_error] at hfold
      have hme : e = m := Except.error.inj hfold
      subst hme
      rw [runGen] at hg
      cases hr : readAll t g.reads with
      | error e2 =>
        rw [hr, exc_bind_error] at hg
        have he2 : e2 = e := Except.error.inj hg
        subst he2
        rcases readAll_error t g.reads e2 hr with ⟨i, hi, hie⟩
        have hilt := (hb g (List.mem_cons_self g gs)).1 i hi
        obtain ⟨hnone, hmsg⟩ := readAt_error_shape t i e2 hilt hie
        refine ⟨i, hilt, hnone, ?_⟩
        rw [hmsg, hid i hilt]
      | ok vs =>
        rw [hr, exc_bind_ok] at hg
        exact absurd ((hb g (List.mem_cons_self g gs)).2)
          (writeAt_error_not_lt t g.target (g.f vs) e hg)
    | ok t1 =>
      rw [hg, exc_bind_ok] at hfold
      obtain ⟨htgt, hreads, hup⟩ := runGen_ok t g t1 hg
      have hshape : ShapeEq t t1 := by
        rw [hup]
        exact shapeEq_updateValue t g.target _
      have hback : UnfilledBack t t1 := by
        rw [hup]
        exact unfilledBack_updateValue t g.target _
      have hb1 : ∀ h ∈ gs, (∀ i ∈ h.reads, i < t1.length) ∧
          h.target < t1.length := by
        intro h hh
        obtain ⟨h1, h2⟩ := hb h (List.mem_cons_of_mem g hh)
        rw [hshape.1]
        exact ⟨h1, h2⟩
      have hid1 : ∀ j, j < t1.length → (nodeAt0 t1 j).id = j := by
        intro j hj
        rw [(hshape.2 j).2.1]
        exact hid j (hshape.1 ▸ hj)
      rcases ih t1 m hb1 hid1 hfold with ⟨k, hk, hnone, hmsg⟩
      exact ⟨k, hshape.1 ▸ hk, hback k hnone, hmsg⟩

theorem runLevel_error (ns : List RawNode) (d : Nat) (lg : LevelGates)
    (hw : LevelWf ns d lg)
    (hid : ∀ j, j < ns.length → (nodeAt0 ns j).id = j)
    (m : String) (h : runLevel ns lg = Except.error m) :
    ∃ k, k < ns.length ∧ (nodeAt0 ns k).value = none ∧
      m = unfilledMsg k := by
  rw [runLevel_gen] at h
  obtain ⟨hwA, hwM, hwH, _, _, _⟩ := hw
  have hbA : ∀ g ∈ lg.adder_gates.map AddGate.toGen,
      (∀ i ∈ g.reads, i < ns.length) ∧ g.target < ns.length :=
    fun g hg => ⟨fun i hi => ((hwA g hg).1 i hi).1, (hwA g hg).2.1⟩
  cases hA : (lg.adder_gates.map AddGate.toGen).foldlM runGen ns with
  | error e =>
    rw [hA, exc_bind_error] at h
    have he : e = m := Except.error.inj h
    subst he
    exact foldGen_error _ ns e hbA hid hA
  | ok ns1 =>
    rw [hA, exc_bind_ok] at h
    obtain ⟨hs1, hu1⟩ := foldGen_shape _ ns ns1 hA
    have hid1 : ∀ j, j < ns1.length → (nodeAt0 ns1 j).id = j := by
      intro j hj
      rw [(hs1.2 j).2.1]
      exact hid j (hs1.1 ▸ hj)
    have hbM : ∀ g ∈ lg.multiplier_gates.map MultiplyGate.toGen,
        (∀ i ∈ g.reads, i < ns1.length) ∧ g.target < ns1.length := by
      intro g hg
      rw [hs1.1]
      exact ⟨fun i hi => ((hwM g hg).1 i hi).1, (hwM g hg).2.1⟩
    cases hM : (lg.multiplier_gates.map MultiplyGate.toGen).foldlM runGen
        ns1 with
    | error e =>
      rw [hM, exc_bind_error] at h
      have he : e = m := Except.error.inj h
      subst he
      rcases foldGen_error _ ns1 e hbM hid1 hM with ⟨k, hk, hnone, hmsg⟩
      exact ⟨k, hs1.1 ▸ hk, hu1 k hnone, hmsg⟩
    | ok ns2 =>
      rw [hM, exc_bind_ok] at h
      obtain ⟨hs2, hu2⟩ := foldGen_shape _ ns1 ns2 hM
      have hs02 := shapeEq_trans hs1 hs2
      have hid2 : ∀ j, j < ns2.length → (nodeAt0 ns2 j).id = j := by
        intro j hj
        rw [(hs02.2 j).2.1]
        exact hid j (hs02.1 ▸ hj)
      have hbH : ∀ g ∈ lg.lambda_gates.map LambdaGate.toGen,
          (∀ i ∈ g.reads, i < ns2.length) ∧ g.target < ns2.length := by
        intro g hg
        rw [hs02.1]
        exact ⟨fun i hi => ((hwH g hg).1 i hi).1, (hwH g hg).2.1⟩
      rcases foldGen_error _ ns2 m hbH hid2 h with ⟨k, hk, hnone, hmsg⟩
      exact ⟨k, hs02.1 ▸ hk, hu1 k (hu2 k hnone), hmsg⟩

theorem fill_go_error (gates : List LevelGates) :
    ∀ (ns : List RawNode) (m : String),
    (∀ lg ∈ gates, ∃ d, LevelWf ns d lg) →
    (∀ j, j < ns.length → (nodeAt0 ns j).id = j) →
    fill_go ns gates = Except.error m →
    ∃ k, k < ns.length ∧ (nodeAt0 ns k).value = none ∧
      m = unfilledMsg k := by
  induction gates with
  | nil =>
    intro ns m _ _ h
    rw [fill_go, List.foldlM_nil, exc_pure] at h
    exact absurd h (by simp)
  | cons lg rest ih =>
    intro ns m hw hid h
    rw [fill_go_cons] at h
    cases hL : runLevel ns lg with
    | error e =>
      rw [hL, exc_bind_error] at h
      have he : e = m := Except.error.inj h
      subst he
      obtain ⟨d, hwl⟩ := hw lg (List.mem_cons_self lg rest)
      exact runLevel_error ns d lg hwl hid e hL
    | ok ns1 =>
      rw [hL, exc_bind_ok] at h
      obtain ⟨hs1, hu1⟩ := runLevel_ok_shape ns lg ns1 hL
      have hid1 : ∀ j, j < ns1.length → (nodeAt0 ns1 j).id = j := by
        intro j hj
        rw [(hs1.2 j).2.1]
        exact hid j (hs1.1 ▸ hj)
      have hw1 : ∀ l2 ∈ rest, ∃ d, LevelWf ns1 d l2 := by
        intro l2 hl2
        obtain ⟨d, hwl⟩ := hw l2 (List.mem_cons_of_mem lg hl2)
        exact ⟨d, levelWf_transfer hs1 hwl⟩
      rcases ih ns1 m hw1 hid1 h with ⟨k, hk, hnone, hmsg⟩
      exact ⟨k, hs1.1 ▸ hk, hu1 k hnone, hmsg⟩

theorem foldGen_ok_notTarget (gs : List GenGate) :
    ∀ (t u : List RawNode) (j : Nat),
    gs.foldlM runGen t = Except.ok u →
    (∀ g ∈ gs, j ≠ g.target) →
    (nodeAt0 u j).value = (nodeAt0 t j).value := by
  induction gs with
  | nil =>
    intro t u j hok _
    rw [List.foldlM_nil, exc_pure] at hok
    rw [← Except.ok.inj hok]
  | cons g gs ih =>
    intro t u j hok hnt
    rw [List.foldlM_cons] at hok
    cases hg : runGen t g with
    | error e =>
      rw [hg, exc_bind_error] at hok
      exact absurd hok (by simp)
    | ok t1 =>
      rw [hg, exc_bind_ok] at hok
      obtain ⟨_, _, hup⟩ := runGen_ok t g t1 hg
      have h1 := ih t1 u j hok (fun h hh => hnt h (List.mem_cons_of_mem g hh))
      rw [h1, hup, nodeAt0_updateValue_ne t g.target j _
        (hnt g (List.mem_cons_self g gs)).symm]

theorem foldGen_ok_read_filled (gs : List GenGate) :
    ∀ (t u : List RawNode) (j : Nat),
    gs.foldlM runGen t = Except.ok u →
    (∀ h ∈ gs, j ≠ h.target) →
    (nodeAt0 t j).value = none →
    ∀ g ∈ gs, j ∉ g.reads := by
  induction gs with
  | nil =>
    intro t u j _ _ _ g hg
    simp at hg
  | cons g gs ih =>
    intro t u j hok hnt hnone h hh hjr
    rw [List.foldlM_cons] at hok
    cases hg : runGen t g with
    | error e =>
      rw [hg, exc_bind_error] at hok
      exact absurd hok (by simp)
    | ok t1 =>
      rw [hg, exc_bind_ok] at hok
      obtain ⟨_, hreads, hup⟩ := runGen_ok t g t1 hg
      rcases List.mem_cons.mp hh with rfl | hh2
      · obtain ⟨v, hv⟩ := hreads j hjr
        exact readAt_none_not_ok t j hnone v hv
      · have hnone1 : (nodeAt0 t1 j).value = none := by
          rw [hup, nodeAt0_updateValue_ne t g.target j _
            (hnt g (List.mem_cons_self g gs)).symm]
          exact hnone
        exact ih t1 u j hok
          (fun h2 hh2b => hnt h2 (List.mem_cons_of_mem g hh2b)) hnone1
          h hh2 hjr

theorem notMem_outs_toGen {γ : Type} (F : γ → GenGate) (out : γ → Nat)
    (hFt : ∀ c, (F c).target = out c) (l : List γ) (j : Nat)
    (hnt : j ∉ l.map out) : ∀ g ∈ l.map F, j ≠ g.target := by
  intro g hg
  rcases List.mem_map.mp hg with ⟨c, hc, rfl⟩
  rw [hFt c]
  intro hc2
  exact hnt (List.mem_map.mpr ⟨c, hc, hc2.symm⟩)

theorem levelOuts_split (lg : LevelGates) (j : Nat)
    (hnt : j ∉ levelOuts lg) :
    j ∉ lg.adder_gates.map (fun g => g.output_id) ∧
    j ∉ lg.multiplier_gates.map (fun g => g.output_id) ∧
    j ∉ lg.lambda_gates.map (fun g => g.output_id) := by
  rw [levelOuts] at hnt
  simp only [List.mem_append, not_or] at hnt
  exact ⟨hnt.1.1, hnt.1.2, hnt.2⟩

theorem runLevel_ok_notTarget (ns : List RawNode) (lg : LevelGates)
    (ns1 : List RawNode) (h : runLevel ns lg = Except.ok ns1) (j : Nat)
    (hnt : j ∉ levelOuts lg) :
    (nodeAt0 ns1 j).value = (nodeAt0 ns j).value := by
  obtain ⟨hntA, hntM, hntH⟩ := levelOuts_split lg j hnt
  have hgA := notMem_outs_toGen AddGate.toGen (fun g => g.output_id)
    (fun c => rfl) lg.adder_gates j hntA
  have hgM := notMem_outs_toGen MultiplyGate.toGen (fun g => g.output_id)
    (fun c => rfl) lg.multiplier_gates j hntM
  have hgH := notMem_outs_toGen LambdaGate.toGen (fun g => g.output_id)
    (fun c => rfl) lg.lambda_gates j hntH
  rw [runLevel_gen] at h
  cases hA : (lg.adder_gates.map AddGate.toGen).foldlM runGen ns with
  | error e =>
    rw [hA, exc_bind_error] at h
    exact absurd h (by simp)
  | ok t1 =>
    rw [hA, exc_bind_ok] at h
    cases hM : (lg.multiplier_gates.map MultiplyGate.toGen).foldlM runGen
        t1 with
    | error e =>
      rw [hM, exc_bind_error] at h
      exact absurd h (by simp)
    | ok t2 =>
      rw [hM, exc_bind_ok] at h
      calc (nodeAt0 ns1 j).value
          = (nodeAt0 t2 j).value := foldGen_ok_notTarget _ t2 ns1 j h hgH
        _ = (nodeAt0 t1 j).value := foldGen_ok_notTarget _ t1 t2 j hM hgM
        _ = (nodeAt0 ns j).value := foldGen_ok_notTarget _ ns t1 j hA hgA

theorem runLevel_ok_read_filled (ns : List RawNode) (lg : LevelGates)
    (ns1 : List RawNode) (h : runLevel ns lg = Except.ok ns1) (j : Nat)
    (hnt : j ∉ levelOuts lg) (hnone : (nodeAt0 ns j).value = none)
    (hread : j ∈ levelReads lg) : False := by
  obtain ⟨hntA, hntM, hntH⟩ := levelOuts_split lg j hnt
  have hgA := notMem_outs_toGen AddGate.toGen (fun g => g.output_id)
    (fun c => rfl) lg.adder_gates j hntA
  have hgM := notMem_outs_toGen MultiplyGate.toGen (fun g => g.output_id)
    (fun c => rfl) lg.multiplier_gates j hntM
  have hgH := notMem_outs_toGen LambdaGate.toGen (fun g => g.output_id)
    (fun c => rfl) lg.lambda_gates j hntH
  rw [runLevel_gen] at h
  cases hA : (lg.adder_gates.map AddGate.toGen).foldlM runGen ns with
  | error e =>
    rw [hA, exc_bind_error] at h
    exact absurd h (by simp)
  | ok t1 =>
    rw [hA, exc_bind_ok] at h
    cases hM : (lg.multiplier_gates.map MultiplyGate.toGen).foldlM runGen
        t1 with
    | error e =>
      rw [hM, exc_bind_error] at h
      exact absurd h (by simp)
    | ok t2 =>
      rw [hM, exc_bind_ok] at h
      rw [levelReads] at hread
      rcases List.mem_append.mp hread with hAM | hLams
      · rcases List.mem_append.mp hAM with hAdds | hMuls
        · rcases mem_foldr_pairs _ _ _ _ hAdds with ⟨g0, hg0, hor⟩
          have hjr : j ∈ (AddGate.toGen g0).reads := by
            show j ∈ [g0.left_id, g0.right_id]
            rcases hor with rfl | rfl
            · exact List.mem_cons_self _ _
            · exact List.mem_cons_of_mem _ (List.mem_cons_self _ _)
          exact foldGen_ok_read_filled _ ns t1 j hA hgA hnone
            (AddGate.toGen g0) (List.mem_map.mpr ⟨g0, hg0, rfl⟩) hjr
        · have hnone1 : (nodeAt0 t1 j).value = none := by
            rw [foldGen_ok_notTarget _ ns t1 j hA hgA]
            exact hnone
          rcases mem_foldr_pairs _ _ _ _ hMuls with ⟨g0, hg0, hor⟩
          have hjr : j ∈ (MultiplyGate.toGen g0).reads := by
            show j ∈ [g0.left_id, g0.right_id]
            rcases hor with rfl | rfl
            · exact List.mem_cons_self _ _
            · exact List.mem_cons_of_mem _ (List.mem_cons_self _ _)
          exact foldGen_ok_read_filled _ t1 t2 j hM hgM hnone1
            (MultiplyGate.toGen g0) (List.mem_map.mpr ⟨g0, hg0, rfl⟩) hjr
      · have hnone1 : (nodeAt0 t1 j).value = none := by
          rw [foldGen_ok_notTarget _ ns t1 j hA hgA]
          exact hnone
        have hnone2 : (nodeAt0 t2 j).value = none := by
          rw [foldGen_ok_notTarget _ t1 t2 j hM hgM]
          exact hnone1
        rcases mem_foldr_append _ _ _ hLams with ⟨g0, hg0, hjin⟩
        have hjr : j ∈ (LambdaGate.toGen g0).reads := hjin
        exact foldGen_ok_read_filled _ t2 ns1 j h hgH hnone2
          (LambdaGate.toGen g0) (List.mem_map.mpr ⟨g0, hg0, rfl⟩) hjr

theorem fill_go_stuck (gates : List LevelGates) :
    ∀ (ns : List RawNode) (j : Nat),
    (∀ lg ∈ gates, j ∉ levelOuts lg) →
    (∃ lg ∈ gates, j ∈ levelReads lg) →
    (nodeAt0 ns j).value = none →
    ∀ u, fill_go ns gates ≠ Except.ok u := by
  induction gates with
  | nil =>
    intro ns j _ hread _ u
    rcases hread with ⟨lg, hlg, _⟩
    simp at hlg
  | cons lg rest ih =>
    intro ns j hnt hread hnone u h
    rw [fill_go_cons] at h
    cases hL : runLevel ns lg with
    | error e =>
      rw [hL, exc_bind_error] at h
      exact absurd h (by simp)
    | ok ns1 =>
      rw [hL, exc_bind_ok] at h
      rcases hread with ⟨lg2, hlg2, hjr⟩
      rcases List.mem_cons.mp hlg2 with rfl | hrest
      · exact runLevel_ok_read_filled ns lg2 ns1 hL j
          (hnt lg2 (List.mem_cons_self lg2 rest)) hnone hjr
      · have hnone1 : (nodeAt0 ns1 j).value = none := by
          rw [runLevel_ok_notTarget ns lg ns1 hL j
            (hnt lg (List.mem_cons_self lg rest))]
          exact hnone
        exact ih ns1 j (fun l2 hl2 => hnt l2 (List.mem_cons_of_mem lg hl2))
          ⟨lg2, hrest, hjr⟩ hnone1 u h

/-- C8 (amended): during `fill_nodes` on a reachable builder, a gate
operand node that holds no value and that no gate of the pass writes
makes evaluation fail: the pass aborts with the unfilled-value panic of
`RawNode::read` — it never substitutes a default — and the reported
condition names an offending unfilled node by its id (the panic message
carries the id only, not the node's depth). -/
theorem fill_nodes_unfilled_aborts (s : Builder) (h : Reachable s)
    (j : Nat) (hread : j ∈ allReadIds s) (hnotout : j ∉ allOutputs s)
    (hnone : (nodeAt s j).value = none) :
    ∃ k, k < s.nodes.length ∧ (nodeAt s k).value = none ∧
      s.fill_nodes = Except.error (unfilledMsg k) := by
  have hs := reachable_inv h
  cases hf : fill_go s.nodes s.gates with
  | ok u =>
    exfalso
    have hnt : ∀ lg ∈ s.gates, j ∉ levelOuts lg := by
      intro lg hlg hj
      exact hnotout (List.mem_flatten.mpr
        ⟨levelOuts lg, List.mem_map.mpr ⟨lg, hlg, rfl⟩, hj⟩)
    have hrd : ∃ lg ∈ s.gates, j ∈ levelReads lg := by
      rcases List.mem_flatten.mp hread with ⟨l, hl, hjl⟩
      rcases List.mem_map.mp hl with ⟨lg, hlg, rfl⟩
      exact ⟨lg, hlg, hjl⟩
    exact fill_go_stuck s.gates s.nodes j hnt hrd hnone u hf
  | error m =>
    have hwf : ∀ lg ∈ s.gates, ∃ d, LevelWf s.nodes d lg := by
      intro lg hlg
      rcases List.mem_iff_getElem.mp hlg with ⟨d, hd, heq⟩
      refine ⟨d, ?_⟩
      have hlev : levelAt s d = lg := by
        rw [levelAt, List.getD_eq_getElem _ _ hd, heq]
      rw [← hlev]
      exact inv_levelWf s hs d hd
    rcases fill_go_error s.gates s.nodes m hwf hs.id_eq hf with
      ⟨k, hk, hkn, hmsg⟩
    refine ⟨k, hk, hkn, ?_⟩
    rw [Builder.fill_nodes, hf, hmsg]
    rfl

/-- C8 witness: `sampleUnset` has one Input node that is never set and
read by an add gate; its evaluation pass aborts with the unfilled-value
message of some unfilled node. -/
theorem fill_nodes_unfilled_aborts_witness :
    ∃ k, k < sampleUnset.nodes.length ∧
      (nodeAt sampleUnset k).value = none ∧
      sampleUnset.fill_nodes = Except.error (unfilledMsg k) :=
  fill_nodes_unfilled_aborts sampleUnset
    (Reachable.add (Reachable.init Reachable.new) (by decide) (by decide))
    0 (by decide) (by decide) rfl

/-- C8 counterexample to the depth part of the claim: the condition
emitted for the unfilled operand of `sampleUnset` is the panic message of
`RawNode::read`, which names the node id only; it is not the
spec-mandated message that carries both the id and the depth of the
offending node. -/
theorem fill_nodes_unfilled_cex :
    sampleUnset.fill_nodes = Except.error (unfilledMsg 0) ∧
    unfilledMsg 0 ≠ unfilledMsgSpec 0 (nodeAt sampleUnset 0).depth :=
  ⟨rfl, by decide⟩


end ZKGraph
